import Mathlib

/-!
Verification of the Redwood storage engine core (`fdbserver/VersionedBTree.actor.cpp`):
a shallow embedding of the DWAL pager (page allocation, free lists, remap index,
snapshots, commit sequencing, recovery), of the FIFO queue pop semantics, of the
B-tree lazy-delete worker and mutation-buffer/leaf-merge logic, and of the
unversioned KV facade (`readRange` / `readValue`), together with theorems about
the embedded operations.

Keys and values are byte strings, modelled as `List Nat`; versions are `Int`
(the source uses `int64_t`); logical page IDs are `Nat`.
-/

namespace Redwood

/-- Byte strings (keys of the KV store), compared lexicographically. -/
abbrev Key := List Nat

/-- Byte strings used as values. -/
abbrev Value := List Nat

/-- Logical page ID (`LogicalPageID`, a 64-bit integer in the source). -/
abbrev LPID := Nat

/-- Commit version (`Version`, `int64_t` in the source). -/
abbrev Version := Int

/-- Sentinel for an invalid logical page ID.  In the remap queue encoding a
`newPageID` equal to the invalid ID marks a pending free ("new == 0 means
pending free" in the on-disk encoding); real pages handed out by the pager
are never this value. -/
def invalidLogicalPageID : LPID := 0

/-- Lexicographic strict order on byte strings, as `StringRef::operator<`
compares keys in the source (memcmp order, shorter string first on ties). -/
def keyLt : Key → Key → Bool
  | [], [] => false
  | [], _ :: _ => true
  | _ :: _, [] => false
  | a :: as, b :: bs => if a < b then true else if b < a then false else keyLt as bs

/-- Lexicographic `≤` on byte strings, `a ≤ b ↔ ¬ (b < a)`. -/
def keyLe (a b : Key) : Bool := !(keyLt b a)

/-! ## DWAL pager state

The embedding keeps the parts of `DWALPager` that the page-lifecycle claims
are about: the flushed contents of the free list, delayed free list and remap
FIFO queues (front of each list = head of the queue), the in-memory remap
index `remappedPages`, the header page count, the last committed oldest
version and the snapshot deque. -/

/-- Entry of the delayed free list queue (`struct DelayedFreePage`).
Its `operator<` in the source compares only `version`. -/
structure DelayedFreePage where
  version : Version
  pageID : LPID
deriving Repr, DecidableEq

/-- Entry of the remap queue (`struct RemappedPage`). -/
structure RemappedPage where
  version : Version
  originalPageID : LPID
  newPageID : LPID
deriving Repr, DecidableEq

/-- One element of `DWALPager::snapshots`: the snapshot version and whether the
pager is the sole owner of the snapshot reference (`isSoleOwner()`). -/
structure SnapshotEntry where
  version : Version
  soleOwner : Bool
deriving Repr, DecidableEq

/-- In-memory pager state relevant to page allocation and version resolution.
`remappedPages` is the index `map<LogicalPageID, map<Version, LogicalPageID>>`,
modelled as an association list whose inner maps are sorted by version. -/
structure PagerState where
  freeList : List LPID
  delayedFreeList : List DelayedFreePage
  remapQueue : List RemappedPage
  remappedPages : List (LPID × List (Version × LPID))
  pageCount : Nat
  lastCommittedOldestVersion : Version
  snapshots : List SnapshotEntry
deriving Repr, DecidableEq

/-- `DWALPager::effectiveOldestVersion()`:
`min(pLastCommittedHeader->oldestVersion, snapshots.front().version)`.
The source asserts the snapshot deque is nonempty wherever this is called; on
an empty deque the model lets the committed oldest version stand. -/
def effectiveOldestVersion (s : PagerState) : Version :=
  match s.snapshots with
  | [] => s.lastCommittedOldestVersion
  | front :: _ => min s.lastCommittedOldestVersion front.version

/-- `DWALPager::newPageID_impl`.  First `freeList.pop()`; if empty, pop the
delayed free list bounded by `DelayedFreePage{effectiveOldestVersion(), 0}` —
since `DelayedFreePage::operator<` compares only versions, the queue head is
popped exactly when its version is `≤ effectiveOldestVersion()`; otherwise
`newLastPageID()` appends a fresh page: `id = pHeader->pageCount++`. -/
def newPageID (s : PagerState) : LPID × PagerState :=
  match s.freeList with
  | id :: rest => (id, { s with freeList := rest })
  | [] =>
    match s.delayedFreeList with
    | e :: rest =>
      if e.version ≤ effectiveOldestVersion s then
        (e.pageID, { s with delayedFreeList := rest })
      else
        (s.pageCount, { s with pageCount := s.pageCount + 1 })
    | [] => (s.pageCount, { s with pageCount := s.pageCount + 1 })

/-- `DWALPager::freePage(pageID, v)`: a page with live remap entries gets a
tombstone `{v, pageID, invalid}` pushed onto the remap queue; otherwise it goes
onto the free list when `v < effectiveOldestVersion()` and onto the delayed
free list (as `{v, pageID}`) when not. -/
def freePage (s : PagerState) (pageID : LPID) (v : Version) : PagerState :=
  if (s.remappedPages.lookup pageID).isSome then
    { s with remapQueue := s.remapQueue ++ [⟨v, pageID, invalidLogicalPageID⟩] }
  else if v < effectiveOldestVersion s then
    { s with freeList := s.freeList ++ [pageID] }
  else
    { s with delayedFreeList := s.delayedFreeList ++ [⟨v, pageID⟩] }

/-- Resolution step of `DWALPager::readPageAtVersion`: on the inner
`map<Version, LogicalPageID>` (sorted ascending by version), the source takes
`upper_bound(v)` and steps back once, i.e. the greatest entry with key `≤ v`
if one exists. -/
def remapResolve (m : List (Version × LPID)) (v : Version) : Option LPID :=
  ((m.filter (fun e => e.1 ≤ v)).getLast?).map (fun e => e.2)

/-- `DWALPager::readPageAtVersion(pageID, v, ...)`: consult `remappedPages` for
`pageID`; if the greatest entry with version `≤ v` exists, read that page,
else read `pageID` itself.  The model returns the physical LPID that is read. -/
def readPageAtVersion (s : PagerState) (pageID : LPID) (v : Version) : LPID :=
  match s.remappedPages.lookup pageID with
  | some m =>
    match remapResolve m v with
    | some newID => newID
    | none => pageID
  | none => pageID

/-- Insert-or-assign into a version-sorted `map<Version, LogicalPageID>`
(the effect of `remappedPages[pageID][v] = newPageID`). -/
def remapMapInsert (m : List (Version × LPID)) (v : Version) (id : LPID) :
    List (Version × LPID) :=
  match m with
  | [] => [(v, id)]
  | (v1, id1) :: rest =>
    if v < v1 then (v, id) :: (v1, id1) :: rest
    else if v = v1 then (v, id) :: rest
    else (v1, id1) :: remapMapInsert rest v id

/-- Insert-or-assign into the remap index at `(pid, v)`. -/
def remapIndexInsert (idx : List (LPID × List (Version × LPID))) (pid : LPID)
    (v : Version) (nid : LPID) : List (LPID × List (Version × LPID)) :=
  match idx with
  | [] => [(pid, [(v, nid)])]
  | (p, m) :: rest =>
    if p = pid then (p, remapMapInsert m v nid) :: rest
    else (p, m) :: remapIndexInsert rest pid v nid

/-- `DWALPager::atomicUpdatePage(pageID, data, v)`: allocate a new page ID,
write the new content there (`updatePage`), push `{v, pageID, newPageID}` onto
the remap queue, record `remappedPages[pageID][v] = newPageID`, and return the
original `pageID`. -/
def atomicUpdatePage (s : PagerState) (pageID : LPID) (v : Version) :
    LPID × PagerState :=
  let alloc := newPageID s
  let nid := alloc.1
  let s1 := alloc.2
  (pageID,
    { s1 with
      remapQueue := s1.remapQueue ++ [⟨v, pageID, nid⟩],
      remappedPages := remapIndexInsert s1.remappedPages pageID v nid })

/-! ## Pager commit sequencing (`DWALPager::commit_impl`)

The source actor is a straight line of awaits; the embedding records the
observable file and lifecycle events of one run in order.  The page writes
issued while flushing the three queues depend on queue contents and are a
parameter of the trace. -/

/-- Observable events of a pager commit. -/
inductive PagerEvent where
  | writeHeader (pageID : LPID)
  | dataWrite (pageID : LPID)
  | waitOperations
  | syncFile
  | updateCommitted
  | commitReturn
deriving Repr, DecidableEq

/-- Event trace of `DWALPager::commit_impl`, in source order: write the last
committed header to page 1; flush the three queues (issuing `flushWrites`);
await all outstanding page writes (`operations.signalAndCollapse()`); sync;
write the header to page 0 (awaited); sync again; copy the header to the last
committed header and push a new snapshot; return. -/
def commitTrace (flushWrites : List LPID) : List PagerEvent :=
  [PagerEvent.writeHeader 1]
    ++ flushWrites.map PagerEvent.dataWrite
    ++ [PagerEvent.waitOperations, PagerEvent.syncFile, PagerEvent.writeHeader 0,
        PagerEvent.syncFile, PagerEvent.updateCommitted, PagerEvent.commitReturn]

/-! ## Recovery (`DWALPager::recover`), existing-file path -/

/-- Payload of a pager header page (format version 2, `struct Header`);
fields beyond those the recovery claims mention are elided. -/
structure HeaderData where
  formatVersion : Nat
  pageSize : Nat
  pageCount : Nat
  committedVersion : Version
  oldestVersion : Version
deriving Repr, DecidableEq

/-- physical header page: payload plus the stored trailing checksum. -/
structure HeaderPage where
  payload : HeaderData
  checksum : Nat
deriving Repr, DecidableEq

/-- Checksum function, seeded with the page ID (`CRC32C` over payload in the
source; the recovery logic only consults the verification outcome, so the
function is a parameter of the model). -/
abbrev Crc := LPID → HeaderData → Nat

/-- `Page::verifyChecksum(pageID)`: recompute and compare with the stored
checksum. -/
def verifyChecksum (crc : Crc) (pid : LPID) (p : HeaderPage) : Bool :=
  crc pid p.payload == p.checksum

/-- The two header blocks of an existing pager file plus its size in bytes. -/
structure DiskFile where
  fileSize : Nat
  page0 : HeaderPage
  page1 : HeaderPage
deriving Repr, DecidableEq

/-- `smallestPhysicalBlock` (4096): header pages always use this size. -/
def smallestPhysicalBlock : Nat := 4096

/-- `Header::FORMAT_VERSION`. -/
def headerFormatVersion : Nat := 2

/-- Errors recovery can raise: `checksum_failed()` when both header pages fail
verification, `internal_error()` on a format version mismatch. -/
inductive PagerError where
  | checksumFailed
  | internalError
deriving Repr, DecidableEq

/-- Observable events of recovery. -/
inductive RecoverEvent where
  | readHeader (pid : LPID)
  | writeHeader (pid : LPID)
  | syncFile
  | takeSnapshot
deriving Repr, DecidableEq

/-- Outcome of a successful recovery: the adopted header payload, whether it
was recovered from the backup at page 1, and the events in order. -/
structure RecoverOutcome where
  header : HeaderData
  recoveredHeader : Bool
  events : List RecoverEvent
deriving Repr, DecidableEq

/-- Existing-file branch of `DWALPager::recover` (taken when the file exists
with at least two `smallestPhysicalBlock` pages): read page 0 and verify its
checksum; on failure read page 1 and verify, raising `checksum_failed` if that
fails too; reject a wrong format version; if the header came from page 1,
write it to page 0 and sync before proceeding; finally take the first
snapshot at the committed version. -/
def recoverExisting (crc : Crc) (disk : DiskFile) :
    Except PagerError RecoverOutcome :=
  if disk.fileSize ≥ 2 * smallestPhysicalBlock then
    if verifyChecksum crc 0 disk.page0 then
      if disk.page0.payload.formatVersion ≠ headerFormatVersion then
        Except.error PagerError.internalError
      else
        Except.ok ⟨disk.page0.payload, false,
          [RecoverEvent.readHeader 0, RecoverEvent.takeSnapshot]⟩
    else if verifyChecksum crc 1 disk.page1 then
      if disk.page1.payload.formatVersion ≠ headerFormatVersion then
        Except.error PagerError.internalError
      else
        Except.ok ⟨disk.page1.payload, true,
          [RecoverEvent.readHeader 0, RecoverEvent.readHeader 1,
           RecoverEvent.writeHeader 0, RecoverEvent.syncFile,
           RecoverEvent.takeSnapshot]⟩
    else
      Except.error PagerError.checksumFailed
  else
    Except.error PagerError.internalError

/-! ## Snapshot list maintenance -/

/-- `DWALPager::expireSnapshots(v)`: pop expired snapshots from the front
while more than one snapshot remains, the front is older than `v`, and the
pager is its sole owner. -/
def expireSnapshots (snapshots : List SnapshotEntry) (v : Version) :
    List SnapshotEntry :=
  match snapshots with
  | [] => []
  | front :: rest =>
    if rest ≠ [] ∧ front.version < v ∧ front.soleOwner then
      expireSnapshots rest v
    else front :: rest

/-- `DWALPager::addLatestSnapshot()`: push a snapshot for the last committed
version onto the back of the deque (initially solely owned by the pager). -/
def addLatestSnapshot (snapshots : List SnapshotEntry) (committedVersion : Version) :
    List SnapshotEntry :=
  snapshots ++ [⟨committedVersion, true⟩]

/-- `DWALPager::getReadSnapshot(v)`: `upper_bound` on the version-sorted deque
then step back once — the greatest snapshot with version `≤ v`; the source
throws `version_invalid()` when the iterator is at the beginning, modelled by
`none`. -/
def getReadSnapshot (snapshots : List SnapshotEntry) (v : Version) :
    Option SnapshotEntry :=
  (snapshots.filter (fun e => e.version ≤ v)).getLast?

/-! ## Lazy-delete worker (`VersionedBTree::incrementalSubtreeClear`)

The worker pops a batch of entries from the front of the lazy delete queue
(`m_lazyDeleteQueue.pop()` — called without an upper bound), reads each popped
page, and for every record carrying a child link either frees the child page
IDs (when the popped page has height 2, so the children are leaves) or pushes
the child onto the front-writer chain of the queue (`pushFront`, which becomes
poppable only after the next flush); afterwards it frees the popped page. -/

/-- `struct LazyDeleteQueueEntry`: a version and a B-tree page ID
(list of LPIDs). -/
structure LazyDeleteQueueEntry where
  version : Version
  pageID : List LPID
deriving Repr, DecidableEq

/-- The part of a decoded B-tree page the worker looks at: its height and the
child page IDs of the records whose value is present. -/
structure BTreePageModel where
  height : Nat
  childPages : List (List LPID)
deriving Repr, DecidableEq

/-- Worker-visible state: flushed (poppable) queue entries, entries written via
`pushFront` but not yet flushed, and the `freeBtreePage` calls issued so far
(page ID with the version passed to the free). -/
structure LazyClearState where
  queue : List LazyDeleteQueueEntry
  frontWrites : List LazyDeleteQueueEntry
  freed : List (List LPID × Version)
deriving Repr, DecidableEq

/-- Per-entry body of the worker loop: free the children (height 2) or push
them back onto the queue front, then free the popped page itself. -/
def processLazyEntry (readPage : List LPID → BTreePageModel)
    (st : LazyClearState) (e : LazyDeleteQueueEntry) : LazyClearState :=
  let p := readPage e.pageID
  let st1 :=
    if p.height = 2 then
      { st with freed := st.freed ++ p.childPages.map (fun c => (c, e.version)) }
    else
      { st with frontWrites :=
          st.frontWrites ++ p.childPages.map (fun c => ⟨e.version, c⟩) }
  { st1 with freed := st1.freed ++ [(e.pageID, e.version)] }

/-- One iteration of the worker loop: take up to `batchSize` entries from the
front of the queue — `pop()` is called with no upper bound, so the entries are
taken unconditionally — then process each in order. -/
def lazyDeleteBatch (readPage : List LPID → BTreePageModel) (batchSize : Nat)
    (st : LazyClearState) : LazyClearState :=
  let popped := st.queue.take batchSize
  let st1 := { st with queue := st.queue.drop batchSize }
  popped.foldl (processLazyEntry readPage) st1

/-- The `freeBtreePage` calls one popped entry contributes, in order: child
frees first (only when the popped page has height 2), then the popped page. -/
def lazyEntryFrees (readPage : List LPID → BTreePageModel)
    (e : LazyDeleteQueueEntry) : List (List LPID × Version) :=
  (if (readPage e.pageID).height = 2 then
    (readPage e.pageID).childPages.map (fun c => (c, e.version))
  else []) ++ [(e.pageID, e.version)]

/-- The `pushFront` calls one popped entry contributes (heights above 2). -/
def lazyEntryPushes (readPage : List LPID → BTreePageModel)
    (e : LazyDeleteQueueEntry) : List LazyDeleteQueueEntry :=
  if (readPage e.pageID).height = 2 then []
  else (readPage e.pageID).childPages.map (fun c => ⟨e.version, c⟩)

/-! ## KV facade: `KeyValueStoreRedwoodUnversioned::readRange_impl`

The committed store visible to the facade cursor is a list of key/value
records sorted ascending by key (every record in the unversioned store is at
version 0 with a present value).  The forward branch seeks the first record
with key `≥ begin` and walks while `key < end`; the reverse branch seeks the
last record with key `≤ end`, steps back on equality, and walks while
`key ≥ begin`. -/

/-- One user-visible record (`KeyValueRef`). -/
structure KV where
  key : Key
  value : Value
deriving Repr, DecidableEq

/-- `KeyValueRef::expectedSize()`: key bytes plus value bytes. -/
def kvExpectedSize (kv : KV) : Nat := kv.key.length + kv.value.length

/-- Total `expectedSize` of a record list. -/
def bytesOf (l : List KV) : Nat := (l.map kvExpectedSize).sum

/-- `Standalone<RangeResultRef>` as the facade fills it in. -/
structure RangeResult where
  results : List KV
  more : Bool
  readThrough : Option Key
deriving Repr, DecidableEq

/-- Forward accumulation loop of `readRange_impl` (`rowLimit > 0`): push the
record, then stop when `--rowLimit == 0` or the accumulated bytes reached
`byteLimit` (so the record crossing `byteLimit` is included).  Returns the
accumulated records with the final `rowLimit` and byte count. -/
def readRangeFwdLoop (byteLimit : Int) :
    List KV → Int → Int → List KV × Int × Int
  | [], rowLimit, acc => ([], rowLimit, acc)
  | kv :: rest, rowLimit, acc =>
    let acc1 := acc + (kvExpectedSize kv : Int)
    let rl1 := rowLimit - 1
    if rl1 = 0 ∨ acc1 ≥ byteLimit then ([kv], rl1, acc1)
    else
      let r := readRangeFwdLoop byteLimit rest rl1 acc1
      (kv :: r.1, r.2.1, r.2.2)

/-- Reverse accumulation loop of `readRange_impl` (`rowLimit < 0`): identical
but the row limit counts up via `++rowLimit`. -/
def readRangeRevLoop (byteLimit : Int) :
    List KV → Int → Int → List KV × Int × Int
  | [], rowLimit, acc => ([], rowLimit, acc)
  | kv :: rest, rowLimit, acc =>
    let acc1 := acc + (kvExpectedSize kv : Int)
    let rl1 := rowLimit + 1
    if rl1 = 0 ∨ acc1 ≥ byteLimit then ([kv], rl1, acc1)
    else
      let r := readRangeRevLoop byteLimit rest rl1 acc1
      (kv :: r.1, r.2.1, r.2.2)

/-- `readRange_impl(self, keys, rowLimit, byteLimit)` over the committed store
`store` (sorted by key).  `none` models the `ASSERT(byteLimit > 0)` failing.
After the loop, `more = (rowLimit == 0 || accumulatedBytes >= byteLimit)` with
the final (mutated) values, and if `more` then `readThrough` is the key of the
last record returned. -/
def readRange_impl (store : List KV) (bk ek : Key) (rowLimit byteLimit : Int) :
    Option RangeResult :=
  if byteLimit > 0 then
    if rowLimit = 0 then some ⟨[], false, none⟩
    else if rowLimit > 0 then
      let entries := store.filter (fun r => keyLe bk r.key && keyLt r.key ek)
      let r := readRangeFwdLoop byteLimit entries rowLimit 0
      let more := r.2.1 = 0 ∨ r.2.2 ≥ byteLimit
      some ⟨r.1, more, if more then (r.1.getLast?).map (fun x => x.key) else none⟩
    else
      let entries := (store.filter (fun r => keyLe bk r.key && keyLt r.key ek)).reverse
      let r := readRangeRevLoop byteLimit entries rowLimit 0
      let more := r.2.1 = 0 ∨ r.2.2 ≥ byteLimit
      some ⟨r.1, more, if more then (r.1.getLast?).map (fun x => x.key) else none⟩
  else none

/-- `readValue_impl`: `findEqual(key)` on the committed store, returning the
value when a record with that key is present. -/
def readValueIn (store : List KV) (k : Key) : Option Value :=
  (store.find? (fun r => r.key == k)).map (fun r => r.value)

/-! ## Mutation buffer (`VersionedBTree::MutationBufferStdMap`) and leaf merge

The mutation buffer is an ordered map from boundary key to `RangeMutation`,
created holding the `dbBegin` key (empty) untouched and the `dbEnd` key with a
cleared boundary.  `insert` splits the surrounding range, inheriting a clear of
the range after the new boundary from its predecessor.  Committing merges the
buffer into the existing leaf records (the linear-merge path of
`commitSubtree`, taken over the whole key space `[dbBegin, dbEnd)`). -/

/-- `struct RangeMutation`. -/
structure RangeMutation where
  boundaryChanged : Bool
  boundaryValue : Option Value
  clearAfterBoundary : Bool
deriving Repr, DecidableEq

/-- Freshly constructed `RangeMutation()`. -/
def freshRangeMutation : RangeMutation := ⟨false, none, false⟩

/-- `RangeMutation::clearBoundary()`. -/
def RangeMutation.clearBoundary (m : RangeMutation) : RangeMutation :=
  { m with boundaryChanged := true, boundaryValue := none }

/-- `RangeMutation::clearAll()`: clear the boundary and the range after it. -/
def RangeMutation.clearAll (m : RangeMutation) : RangeMutation :=
  { m.clearBoundary with clearAfterBoundary := true }

/-- `RangeMutation::setBoundaryValue(v)`. -/
def RangeMutation.setBoundaryValue (m : RangeMutation) (v : Value) : RangeMutation :=
  { m with boundaryChanged := true, boundaryValue := some v }

/-- `RangeMutation::boundarySet()`. -/
def RangeMutation.boundarySet (m : RangeMutation) : Bool :=
  m.boundaryChanged && m.boundaryValue.isSome

/-- The mutation buffer, as a key-sorted association list. -/
abbrev MutationBuffer := List (Key × RangeMutation)

/-- `VersionedBTree::dbEnd.key`, the upper sentinel of the key space. -/
def dbEndKey : Key := [255, 255, 255, 255, 255]

/-- The buffer a fresh `MutationBufferStdMap` holds: the `dbBegin` (empty) key
untouched, and the `dbEnd` key with `clearBoundary()` applied. -/
def emptyMutationBuffer : MutationBuffer :=
  [([], freshRangeMutation), (dbEndKey, RangeMutation.clearBoundary freshRangeMutation)]

/-- `MutationBufferStdMap::insert(boundary)` walk: find the position of `k`;
when absent, create it with a fresh mutation, applying `clearAll()` when the
preceding boundary clears the range after it (`prev` carries the predecessor
mutation; the empty key is always present, so a true insertion always has a
predecessor). -/
def mbInsertFrom (prev : RangeMutation) (k : Key) : MutationBuffer → MutationBuffer
  | [] =>
    [(k, if prev.clearAfterBoundary then RangeMutation.clearAll freshRangeMutation
         else freshRangeMutation)]
  | (k1, m1) :: rest =>
    if k = k1 then (k1, m1) :: rest
    else if keyLt k k1 then
      (k, if prev.clearAfterBoundary then RangeMutation.clearAll freshRangeMutation
          else freshRangeMutation) :: (k1, m1) :: rest
    else (k1, m1) :: mbInsertFrom m1 k rest

/-- `MutationBufferStdMap::insert(boundary)`. -/
def mbInsert (k : Key) (mb : MutationBuffer) : MutationBuffer :=
  mbInsertFrom freshRangeMutation k mb

/-- Apply `f` to the mutation stored at boundary `k` (the effect of mutating
through the iterator `insert` returns). -/
def mbModify (k : Key) (f : RangeMutation → RangeMutation) :
    MutationBuffer → MutationBuffer
  | [] => []
  | (k1, m1) :: rest =>
    if k = k1 then (k1, f m1) :: rest else (k1, m1) :: mbModify k f rest

/-- `VersionedBTree::set(keyValue)`:
`m_pBuffer->insert(keyValue.key).mutation().setBoundaryValue(...)`. -/
def btreeSet (k : Key) (v : Value) (mb : MutationBuffer) : MutationBuffer :=
  mbModify k (fun m => m.setBoundaryValue v) (mbInsert k mb)

/-- The single-key-clear test in `VersionedBTree::clear`:
`begin.size() == end.size() - 1 && end[end.size() - 1] == 0 &&
end.startsWith(begin)`. -/
def isSingleKeyClear (b e : Key) : Bool :=
  b.length + 1 = e.length && e.getLast? == some 0 && b.isPrefixOf e

/-- `VersionedBTree::clear(clearedRange)`: a single-key clear only marks the
begin boundary cleared; a range clear inserts both boundaries, applies
`clearAll()` to the begin boundary, and erases the boundaries strictly
between begin and end. -/
def btreeClear (b e : Key) (mb : MutationBuffer) : MutationBuffer :=
  if isSingleKeyClear b e then
    mbModify b (fun m => m.clearBoundary) (mbInsert b mb)
  else
    let mb2 := mbInsert e (mbInsert b mb)
    let mb3 := mbModify b (fun m => m.clearAll) mb2
    mb3.filter (fun p => !(keyLt b p.1 && keyLt p.1 e))

/-- Linear-merge path of the leaf case of `VersionedBTree::commitSubtree`,
iterating the mutation boundaries of the slice against the existing records
(sorted by key).  For each boundary: records at the boundary key are kept
unless the boundary change applies (`applyBoundaryChange`); a set boundary
emits its new record; records strictly between this boundary and the next are
dropped exactly when `clearAfterBoundary`.  Records remaining at the end
boundary key are dropped when that boundary changed.  `lower` is the subtree
lower bound (`dbBegin` for the whole tree) and `first` tracks
`firstMutationBoundary`. -/
def leafMergeLoop (lower : Key) (endB : Key × RangeMutation) :
    Bool → List (Key × RangeMutation) → List KV → List KV
  | _, [], recs => if endB.2.boundaryChanged then [] else recs
  | first, (bk, bm) :: rest, recs =>
    let applyBoundaryChange := bm.boundaryChanged && (!first || keyLe lower bk)
    let keptAtBoundary :=
      if applyBoundaryChange then [] else recs.filter (fun r => r.key == bk)
    let inserted :=
      if applyBoundaryChange && bm.boundarySet then
        [⟨bk, bm.boundaryValue.getD []⟩]
      else []
    let nextKey := match rest with | [] => endB.1 | (nk, _) :: _ => nk
    let keptMiddle :=
      if bm.clearAfterBoundary then []
      else recs.filter (fun r => keyLt bk r.key && keyLt r.key nextKey)
    let rem := recs.filter (fun r => keyLe nextKey r.key)
    keptAtBoundary ++ inserted ++ keptMiddle ++ leafMergeLoop lower endB false rest rem

/-- Commit a mutation buffer against the whole-tree record list: the slice for
the root subtree runs from the greatest boundary `≤ dbBegin.key` (the empty
key, always the first boundary) to the least boundary `≥ dbEnd.key` (the
`dbEnd` boundary, always the last). -/
def applyMutationBuffer (mb : MutationBuffer) (recs : List KV) : List KV :=
  match mb.getLast? with
  | none => recs
  | some endB => leafMergeLoop [] endB true mb.dropLast recs

/-- Logical store content after `set(k, v)`, `clear([cb, ce))`, `commit()`
starting from committed records `recs`. -/
def setClearCommitContent (k : Key) (v : Value) (cb ce : Key) (recs : List KV) :
    List KV :=
  applyMutationBuffer (btreeClear cb ce (btreeSet k v emptyMutationBuffer)) recs

/-! ## Statement-level predicates -/

/-- Records sorted strictly ascending by key (the order the B-tree cursor
yields them in). -/
def sortedByKey (l : List KV) : Prop :=
  l.Pairwise (fun a b => keyLt a.key b.key = true)

/-- Mutation-buffer boundaries sorted strictly ascending by key. -/
def mbSorted (l : List (Key × RangeMutation)) : Prop :=
  l.Pairwise (fun p q => keyLt p.1 q.1 = true)

/-- How one `readRange` accumulation run relates to the candidate records
`entries` it walks (already restricted to the requested range and ordered in
walk direction): the result is the prefix of `entries` that stops exactly when
`limitRows` records have been taken or the byte count reaches `byteLimit`
(crossing record included), `more` is set exactly when a limit stopped the
walk, and `readThrough` is the last returned key exactly when `more`. -/
def ReadRangeStops (entries : List KV) (limitRows : Nat) (byteLimit : Int)
    (res : RangeResult) : Prop :=
  res.results = entries.take res.results.length ∧
  res.results.length ≤ limitRows ∧
  (∀ n, n < res.results.length →
    n < limitRows ∧ (bytesOf (entries.take n) : Int) < byteLimit) ∧
  (res.results.length = entries.length ∨ res.results.length = limitRows ∨
    (bytesOf res.results : Int) ≥ byteLimit) ∧
  (res.more = true ↔
    (res.results.length = limitRows ∨ (bytesOf res.results : Int) ≥ byteLimit)) ∧
  (res.more = true →
    res.readThrough = (res.results.getLast?).map (fun r => r.key)) ∧
  (res.more = false → res.readThrough = none)

/-- Forward (`rowLimit > 0`) claim about one `readRange` result: accumulation
over the in-range records in ascending key order, with the stop/`more`/
`readThrough` behavior of `ReadRangeStops`. -/
def ReadRangeFwdClaim (store : List KV) (bk ek : Key) (rowLimit byteLimit : Int)
    (res : RangeResult) : Prop :=
  ReadRangeStops (store.filter (fun r => keyLe bk r.key && keyLt r.key ek))
    rowLimit.toNat byteLimit res ∧
  res.results.Pairwise (fun a b => keyLt a.key b.key = true) ∧
  ∀ r ∈ res.results, keyLe bk r.key = true ∧ keyLt r.key ek = true

/-- Reverse (`rowLimit < 0`) claim about one `readRange` result: accumulation
over the in-range records in descending key order. -/
def ReadRangeRevClaim (store : List KV) (bk ek : Key) (rowLimit byteLimit : Int)
    (res : RangeResult) : Prop :=
  ReadRangeStops
    ((store.filter (fun r => keyLe bk r.key && keyLt r.key ek)).reverse)
    (-rowLimit).toNat byteLimit res ∧
  res.results.Pairwise (fun a b => keyLt b.key a.key = true) ∧
  ∀ r ∈ res.results, keyLe bk r.key = true ∧ keyLt r.key ek = true

/-- Per-boundary conditions under which the leaf merge cannot emit a record
with key `k`: every boundary at `k` erases the old records without setting a
new value, and every boundary range that strictly contains `k` clears the
range after its boundary. -/
def CoversCleared (k : Key) (endKey : Key) : List (Key × RangeMutation) → Prop
  | [] => True
  | (bk, bm) :: rest =>
    (bk = k → bm.boundaryChanged = true ∧ bm.boundarySet = false) ∧
    (keyLt bk k = true →
      keyLt k (match rest with | [] => endKey | (nk, _) :: _ => nk) = true →
      bm.clearAfterBoundary = true) ∧
    CoversCleared k endKey rest

/-! # Theorems -/

/-! ## Lexicographic order facts -/

theorem keyLt_irrefl (a : Key) : keyLt a a = false := by
  induction a with
  | nil => rfl
  | cons x xs ih => simp [keyLt, ih]

theorem keyLt_asymm : ∀ {a b : Key}, keyLt a b = true → keyLt b a = false := by
  intro a
  induction a with
  | nil =>
    intro b h
    cases b with
    | nil => simp [keyLt] at h
    | cons y ys => simp [keyLt]
  | cons x xs ih =>
    intro b h
    cases b with
    | nil => simp [keyLt] at h
    | cons y ys =>
      simp only [keyLt] at h ⊢
      by_cases hxy : x < y
      · have hyx : ¬ y < x := by omega
        simp [hxy, hyx]
      · by_cases hyx : y < x
        · simp [hxy, hyx] at h
        · simp only [hxy, hyx, if_false] at h
          simp [hxy, hyx, ih h]

theorem keyLt_trans : ∀ {a b c : Key},
    keyLt a b = true → keyLt b c = true → keyLt a c = true := by
  intro a
  induction a with
  | nil =>
    intro b c hab hbc
    cases b with
    | nil => simp [keyLt] at hab
    | cons y ys =>
      cases c with
      | nil => simp [keyLt] at hbc
      | cons z zs => simp [keyLt]
  | cons x xs ih =>
    intro b c hab hbc
    cases b with
    | nil => simp [keyLt] at hab
    | cons y ys =>
      cases c with
      | nil => simp [keyLt] at hbc
      | cons z zs =>
        simp only [keyLt] at hab hbc ⊢
        by_cases hxy : x < y
        · by_cases hyz : y < z
          · have : x < z := by omega
            simp [this]
          · by_cases hzy : z < y
            · simp [hxy, hyz, hzy] at hbc
            · have hyz2 : y = z := by omega
              subst hyz2
              simp [hxy]
        · by_cases hyx : y < x
          · simp [hxy, hyx] at hab
          · have hxy2 : x = y := by omega
            subst hxy2
            simp only [hxy, hyx, if_false] at hab
            by_cases hyz : x < z
            · simp [hyz]
            · by_cases hzy : z < x
              · simp [hyz, hzy] at hbc
              · simp only [hyz, hzy, if_false] at hbc
                simp [hyz, hzy, ih hab hbc]

theorem keyLt_conn : ∀ {a b : Key},
    keyLt a b = false → keyLt b a = false → a = b := by
  intro a
  induction a with
  | nil =>
    intro b hab _
    cases b with
    | nil => rfl
    | cons y ys => simp [keyLt] at hab
  | cons x xs ih =>
    intro b hab hba
    cases b with
    | nil => simp [keyLt] at hba
    | cons y ys =>
      simp only [keyLt] at hab hba
      by_cases hxy : x < y
      · simp [hxy] at hab
      · by_cases hyx : y < x
        · simp [hxy, hyx] at hba
        · have hxy2 : x = y := by omega
          subst hxy2
          simp only [hxy, hyx, if_false] at hab hba
          rw [ih hab hba]

theorem keyLe_nil (b : Key) : keyLe [] b = true := by
  cases b <;> rfl

theorem keyLe_iff {a b : Key} : keyLe a b = true ↔ keyLt b a = false := by
  simp [keyLe]

theorem keyLt_of_le_of_lt {a b c : Key} (h1 : keyLe a b = true)
    (h2 : keyLt b c = true) : keyLt a c = true := by
  rw [keyLe_iff] at h1
  by_cases hab : keyLt a b = true
  · exact keyLt_trans hab h2
  · have : a = b := keyLt_conn (by simpa using hab) h1
    exact this ▸ h2

theorem keyLt_of_lt_of_le {a b c : Key} (h1 : keyLt a b = true)
    (h2 : keyLe b c = true) : keyLt a c = true := by
  rw [keyLe_iff] at h2
  by_cases hbc : keyLt b c = true
  · exact keyLt_trans h1 hbc
  · have : b = c := keyLt_conn (by simpa using hbc) h2
    exact this ▸ h1

theorem keyLt_ne {a b : Key} (h : keyLt a b = true) : a ≠ b := by
  intro he
  subst he
  simp [keyLt_irrefl] at h

theorem keyLe_of_lt {a b : Key} (h : keyLt a b = true) : keyLe a b = true := by
  rw [keyLe_iff]
  exact keyLt_asymm h

theorem keyLt_nil_of_ne {b : Key} (h : b ≠ []) : keyLt [] b = true := by
  cases b with
  | nil => exact absurd rfl h
  | cons y ys => rfl

/-- There is no key strictly between `b` and `b ++ [0]`. -/
theorem key_between_zero : ∀ {b k : Key},
    keyLe b k = true → keyLt k (b ++ [0]) = true → k = b := by
  intro b
  induction b with
  | nil =>
    intro k h1 h2
    cases k with
    | nil => rfl
    | cons x xs =>
      simp only [List.nil_append, keyLt] at h2
      by_cases hx : x < 0
      · omega
      · by_cases h0 : 0 < x
        · simp [hx, h0] at h2
        · have hx0 : x = 0 := by omega
          subst hx0
          simp only [hx, h0, if_false] at h2
          cases xs <;> simp [keyLt] at h2
  | cons c cs ih =>
    intro k h1 h2
    cases k with
    | nil => simp [keyLe, keyLt] at h1
    | cons x xs =>
      simp only [List.cons_append, keyLt] at h2
      simp only [keyLe, keyLt, Bool.not_eq_true'] at h1
      by_cases hxc : x < c
      · simp [hxc] at h1
      · by_cases hcx : c < x
        · simp [hcx, hxc] at h2
        · have hxc2 : x = c := by omega
          subst hxc2
          simp only [hxc, hcx, if_false] at h2
          simp only [hxc, hcx, if_false] at h1
          have : xs = cs := ih (by simpa [keyLe] using h1) h2
          rw [this]

/-! ## C3: pager commit durability barrier -/

/-- C3: every run of `DWALPager::commit_impl` first completes all outstanding
data-page writes, then syncs the file, then writes the header to LPID 0, then
syncs again, and only then returns: the trace splits around the
sync/header-write/sync block, with no data write, no sync and no header-0
write before the block is reached and the return strictly after the second
sync. -/
theorem commit_sync_header_sync_order (ws : List LPID) :
    ∃ pre post,
      commitTrace ws =
        pre ++ ([PagerEvent.syncFile, PagerEvent.writeHeader 0,
          PagerEvent.syncFile] ++ post) ∧
      pre.getLast? = some PagerEvent.waitOperations ∧
      (∀ p, PagerEvent.dataWrite p ∉
        ([PagerEvent.syncFile, PagerEvent.writeHeader 0,
          PagerEvent.syncFile] ++ post)) ∧
      PagerEvent.syncFile ∉ pre ∧
      PagerEvent.writeHeader 0 ∉ pre ∧
      PagerEvent.commitReturn ∈ post ∧
      PagerEvent.commitReturn ∉ pre := by
  refine ⟨[PagerEvent.writeHeader 1] ++ ws.map PagerEvent.dataWrite
    ++ [PagerEvent.waitOperations],
    [PagerEvent.updateCommitted, PagerEvent.commitReturn], ?_, ?_, ?_, ?_, ?_, ?_, ?_⟩
  · simp [commitTrace]
  · show (([PagerEvent.writeHeader 1] ++ ws.map PagerEvent.dataWrite)
      ++ [PagerEvent.waitOperations]).getLast? = some PagerEvent.waitOperations
    exact List.getLast?_concat _
  · intro p
    simp
  · simp [List.mem_map]
  · simp [List.mem_map]
  · simp
  · simp [List.mem_map]

/-! ## C4: new page ID preference order -/

/-- C4: `newPageID` returns, in order of preference, the head of the free
list; else the head of the delayed free list when its version is at most the
effective oldest version; else a freshly appended LPID equal to the header
page count, which is incremented. -/
theorem newPageID_preference (s : PagerState) :
    (∀ id rest, s.freeList = id :: rest →
      newPageID s = (id, { s with freeList := rest })) ∧
    (∀ e rest, s.freeList = [] → s.delayedFreeList = e :: rest →
      e.version ≤ effectiveOldestVersion s →
      newPageID s = (e.pageID, { s with delayedFreeList := rest })) ∧
    (s.freeList = [] →
      (match s.delayedFreeList with
       | [] => True
       | e :: _ => effectiveOldestVersion s < e.version) →
      newPageID s = (s.pageCount, { s with pageCount := s.pageCount + 1 })) := by
  refine ⟨?_, ?_, ?_⟩
  · intro id rest h
    simp [newPageID, h]
  · intro e rest hf hd hle
    simp [newPageID, hf, hd, hle]
  · intro hf hd
    cases hdl : s.delayedFreeList with
    | nil => simp [newPageID, hf, hdl]
    | cons e rest =>
      rw [hdl] at hd
      have hd2 : effectiveOldestVersion s < e.version := hd
      simp only [newPageID, hf, hdl]
      have : ¬ (e.version ≤ effectiveOldestVersion s) := not_le.mpr hd2
      simp [this]

/-- Witness for C4: with free list `[5]` the pager hands out page 5 from the
free list. -/
theorem newPageID_preference_witness :
    newPageID ⟨[5], [⟨3, 8⟩], [], [], 9, 4, [⟨4, true⟩]⟩ =
      (5, ⟨[], [⟨3, 8⟩], [], [], 9, 4, [⟨4, true⟩]⟩) :=
  (newPageID_preference _).1 5 [] rfl

/-! ## C5: freePage routing -/

/-- C5: `freePage(id, v)` pushes a tombstone onto the remap queue when the page
has live remap entries (touching neither free list); otherwise it pushes the
page onto the free list when `v` is below the effective oldest version and
onto the delayed free list when not. -/
theorem freePage_routing (s : PagerState) (pid : LPID) (v : Version) :
    ((s.remappedPages.lookup pid).isSome = true →
      freePage s pid v =
        { s with remapQueue :=
            s.remapQueue ++ [⟨v, pid, invalidLogicalPageID⟩] }) ∧
    ((s.remappedPages.lookup pid).isSome = false →
      v < effectiveOldestVersion s →
      freePage s pid v = { s with freeList := s.freeList ++ [pid] }) ∧
    ((s.remappedPages.lookup pid).isSome = false →
      ¬ (v < effectiveOldestVersion s) →
      freePage s pid v =
        { s with delayedFreeList := s.delayedFreeList ++ [⟨v, pid⟩] }) := by
  refine ⟨?_, ?_, ?_⟩
  · intro h
    simp [freePage, h]
  · intro h1 h2
    simp [freePage, h1, h2]
  · intro h1 h2
    simp [freePage, h1, h2]

/-- Witness for C5: freeing page 4 at version 1 with effective oldest
version 3 pushes it onto the free list. -/
theorem freePage_routing_witness :
    freePage ⟨[], [], [], [], 9, 3, [⟨3, true⟩]⟩ 4 1 =
      ⟨[4], [], [], [], 9, 3, [⟨3, true⟩]⟩ :=
  (freePage_routing ⟨[], [], [], [], 9, 3, [⟨3, true⟩]⟩ 4 1).2.1 rfl (by decide)

/-! ## C9: header recovery fallback -/

/-- C9: on an existing pager file, recovery adopts the page-0 header when its
checksum verifies; otherwise it reads page 1 and, when that verifies, promotes
the backup by writing it to page 0 and syncing before proceeding; when both
verifications fail it raises the fatal checksum error. -/
theorem recover_header_fallback (crc : Crc) (disk : DiskFile)
    (hsize : disk.fileSize ≥ 2 * smallestPhysicalBlock) :
    (verifyChecksum crc 0 disk.page0 = true →
      disk.page0.payload.formatVersion = headerFormatVersion →
      recoverExisting crc disk =
        Except.ok ⟨disk.page0.payload, false,
          [RecoverEvent.readHeader 0, RecoverEvent.takeSnapshot]⟩) ∧
    (verifyChecksum crc 0 disk.page0 = false →
      verifyChecksum crc 1 disk.page1 = true →
      disk.page1.payload.formatVersion = headerFormatVersion →
      recoverExisting crc disk =
        Except.ok ⟨disk.page1.payload, true,
          [RecoverEvent.readHeader 0, RecoverEvent.readHeader 1,
           RecoverEvent.writeHeader 0, RecoverEvent.syncFile,
           RecoverEvent.takeSnapshot]⟩) ∧
    (verifyChecksum crc 0 disk.page0 = false →
      verifyChecksum crc 1 disk.page1 = false →
      recoverExisting crc disk = Except.error PagerError.checksumFailed) := by
  refine ⟨?_, ?_, ?_⟩
  · intro h0 hf
    simp [recoverExisting, hsize, h0, hf]
  · intro h0 h1 hf
    simp [recoverExisting, hsize, h0, h1, hf]
  · intro h0 h1
    simp [recoverExisting, hsize, h0, h1]

/-- Witness for C9: page 0 corrupt, page 1 valid — recovery promotes the
backup header, writing it to page 0 and syncing. -/
theorem recover_header_fallback_witness :
    recoverExisting (fun pid h => pid + h.formatVersion)
        ⟨8192, ⟨⟨2, 4096, 2, 1, 1⟩, 99⟩, ⟨⟨2, 4096, 2, 1, 1⟩, 3⟩⟩ =
      Except.ok ⟨⟨2, 4096, 2, 1, 1⟩, true,
        [RecoverEvent.readHeader 0, RecoverEvent.readHeader 1,
         RecoverEvent.writeHeader 0, RecoverEvent.syncFile,
         RecoverEvent.takeSnapshot]⟩ :=
  (recover_header_fallback (fun pid h => pid + h.formatVersion)
    ⟨8192, ⟨⟨2, 4096, 2, 1, 1⟩, 99⟩, ⟨⟨2, 4096, 2, 1, 1⟩, 3⟩⟩
    (by decide)).2.1 (by decide) (by decide) (by decide)

/-! ## C7: delayed free list reuse threshold -/

/-- C7 (counterexample): a page parked on the delayed free list with version 5
is handed out by `newPageID` while the effective oldest version is exactly 5 —
the pop bound `DelayedFreePage{effectiveOldestVersion(), 0}` admits the head
when its version is equal, so reuse does not wait for the effective oldest
version to become strictly greater. -/
theorem delayedFree_reused_at_equal_oldest :
    effectiveOldestVersion ⟨[], [⟨5, 7⟩], [], [], 10, 5, [⟨5, true⟩]⟩ = 5 ∧
    (newPageID ⟨[], [⟨5, 7⟩], [], [], 10, 5, [⟨5, true⟩]⟩).1 = 7 ∧
    ¬ (5 < effectiveOldestVersion ⟨[], [⟨5, 7⟩], [], [], 10, 5, [⟨5, true⟩]⟩) := by
  refine ⟨by decide, by decide, by decide⟩

/-- C7 (amended): a page parked on the delayed free list with version V is
popped by `newPageID` exactly when the effective oldest version is at least V
(not strictly greater): the head of the delayed free list is consumed iff its
version is `≤ effectiveOldestVersion()`. -/
theorem delayedFree_pop_iff_version_le (s : PagerState) (e : DelayedFreePage)
    (rest : List DelayedFreePage) (hf : s.freeList = [])
    (hd : s.delayedFreeList = e :: rest) :
    ((newPageID s).1 = e.pageID ∧ (newPageID s).2.delayedFreeList = rest) ↔
      e.version ≤ effectiveOldestVersion s := by
  constructor
  · intro h
    by_contra hle
    simp only [newPageID, hf, hd, hle, if_false] at h
    have h2 := h.2
    have := congrArg List.length h2
    simp at this
  · intro hle
    simp [newPageID, hf, hd, hle]

/-- Witness for the amended C7: version 3 is at most the effective oldest
version 5, so page 7 is popped from the delayed free list. -/
theorem delayedFree_pop_iff_version_le_witness :
    (newPageID ⟨[], [⟨3, 7⟩], [], [], 10, 5, [⟨5, true⟩]⟩).1 = 7 ∧
    (newPageID ⟨[], [⟨3, 7⟩], [], [], 10, 5, [⟨5, true⟩]⟩).2.delayedFreeList = [] :=
  (delayedFree_pop_iff_version_le _ ⟨3, 7⟩ [] rfl rfl).mpr (by decide)

/-! ## C8: lazy-delete worker -/

/-- C8 (counterexample): the worker loop pops with
`m_lazyDeleteQueue.pop()` — no upper bound — so an entry whose version 10
exceeds an effective oldest version of 5 is still popped and processed (here
its page is freed) in a single batch. -/
theorem lazyDelete_pops_beyond_oldest :
    effectiveOldestVersion ⟨[], [], [], [], 2, 5, [⟨5, true⟩]⟩ = 5 ∧
    (lazyDeleteBatch (fun _ => ⟨2, []⟩) 10 ⟨[⟨10, [3]⟩], [], []⟩).freed =
      [([3], 10)] ∧
    ¬ ((10 : Version) ≤ 5) := by
  refine ⟨by decide, by decide, by decide⟩

theorem processLazyEntry_step (readPage : List LPID → BTreePageModel)
    (st : LazyClearState) (e : LazyDeleteQueueEntry) :
    processLazyEntry readPage st e =
      { st with
        frontWrites := st.frontWrites ++ lazyEntryPushes readPage e,
        freed := st.freed ++ lazyEntryFrees readPage e } := by
  by_cases h : (readPage e.pageID).height = 2
  · simp [processLazyEntry, lazyEntryPushes, lazyEntryFrees, h, List.append_assoc]
  · simp [processLazyEntry, lazyEntryPushes, lazyEntryFrees, h]

theorem foldl_processLazyEntry (readPage : List LPID → BTreePageModel) :
    ∀ (l : List LazyDeleteQueueEntry) (st : LazyClearState),
      l.foldl (processLazyEntry readPage) st =
        { st with
          frontWrites := st.frontWrites ++ l.flatMap (lazyEntryPushes readPage),
          freed := st.freed ++ l.flatMap (lazyEntryFrees readPage) } := by
  intro l
  induction l with
  | nil => intro st; simp
  | cons e t ih =>
    intro st
    simp [List.foldl_cons, processLazyEntry_step, ih, List.append_assoc]

/-- C8 (amended): one batch of the lazy-delete worker pops up to `batchSize`
entries from the queue front unconditionally (no version bound); each popped
entry contributes, in order, the frees of its child page IDs when the page has
height 2 — children pushed back onto the queue front instead when higher —
followed by the free of the popped page itself. -/
theorem lazyDeleteBatch_behavior (readPage : List LPID → BTreePageModel)
    (batchSize : Nat) (st : LazyClearState) :
    lazyDeleteBatch readPage batchSize st =
      { queue := st.queue.drop batchSize,
        frontWrites := st.frontWrites ++
          (st.queue.take batchSize).flatMap (lazyEntryPushes readPage),
        freed := st.freed ++
          (st.queue.take batchSize).flatMap (lazyEntryFrees readPage) } := by
  simp [lazyDeleteBatch, foldl_processLazyEntry]

/-! ## C10: the snapshot list is never empty -/

theorem expireSnapshots_ne_nil :
    ∀ (l : List SnapshotEntry) (v : Version), l ≠ [] →
      expireSnapshots l v ≠ [] := by
  intro l
  induction l with
  | nil => intro v h; exact absurd rfl h
  | cons a t ih =>
    intro v _
    by_cases hc : t ≠ [] ∧ a.version < v ∧ a.soleOwner
    · rw [expireSnapshots, if_pos hc]
      exact ih v hc.1
    · rw [expireSnapshots, if_neg hc]
      simp

theorem expireSnapshots_dropped :
    ∀ (l : List SnapshotEntry) (v : Version),
      ∃ dropped, l = dropped ++ expireSnapshots l v ∧
        ∀ e ∈ dropped, e.version < v ∧ e.soleOwner = true := by
  intro l
  induction l with
  | nil => intro v; exact ⟨[], by simp [expireSnapshots], by simp⟩
  | cons a t ih =>
    intro v
    by_cases hc : t ≠ [] ∧ a.version < v ∧ a.soleOwner
    · obtain ⟨d, hd, he⟩ := ih v
      refine ⟨a :: d, ?_, ?_⟩
      · rw [expireSnapshots, if_pos hc]
        simpa using hd
      · intro e he2
        rcases List.mem_cons.mp he2 with h1 | h2
        · subst h1
          exact ⟨hc.2.1, hc.2.2⟩
        · exact he e h2
    · exact ⟨[], by rw [expireSnapshots, if_neg hc]; rfl, by simp⟩

theorem mem_of_getLast?_eq {α : Type} {l : List α} {a : α}
    (h : l.getLast? = some a) : a ∈ l := by
  obtain ⟨hne, he⟩ := List.mem_getLast?_eq_getLast (show a ∈ l.getLast? from h)
  rw [he]
  exact List.getLast_mem hne

theorem version_le_getLast :
    ∀ (l : List SnapshotEntry),
      l.Pairwise (fun a b => a.version ≤ b.version) →
      ∀ (e : SnapshotEntry), l.getLast? = some e →
      ∀ x ∈ l, x.version ≤ e.version := by
  intro l
  induction l with
  | nil => intro _ e hl; simp at hl
  | cons a t ih =>
    intro hs e hl x hx
    obtain ⟨ha, ht⟩ := List.pairwise_cons.mp hs
    cases t with
    | nil =>
      simp at hl hx
      subst hl
      subst hx
      exact le_refl _
    | cons b t2 =>
      rw [List.getLast?_cons_cons] at hl
      rcases List.mem_cons.mp hx with h1 | h2
      · subst h1
        have he : e ∈ b :: t2 := mem_of_getLast?_eq hl
        exact ha e he
      · exact ih ht e hl x h2

/-- C10: the pager snapshot list stays nonempty and serviceable:
`expireSnapshots(v)` removes only a front segment of snapshots that are older
than `v` and solely owned, and never empties the list; `addLatestSnapshot`
appends a snapshot for the committed version; and for any `w` at least the
front snapshot version, `getReadSnapshot(w)` returns the newest snapshot with
version `≤ w`. -/
theorem snapshots_never_empty (snapshots : List SnapshotEntry) (v cv w : Version) :
    (snapshots ≠ [] → expireSnapshots snapshots v ≠ []) ∧
    (∃ dropped, snapshots = dropped ++ expireSnapshots snapshots v ∧
      ∀ e ∈ dropped, e.version < v ∧ e.soleOwner = true) ∧
    (addLatestSnapshot snapshots cv).getLast? = some ⟨cv, true⟩ ∧
    (snapshots.Pairwise (fun a b => a.version ≤ b.version) →
      ∀ front rest, snapshots = front :: rest → front.version ≤ w →
        ∃ e, getReadSnapshot snapshots w = some e ∧ e.version ≤ w ∧
          ∀ x ∈ snapshots, x.version ≤ w → x.version ≤ e.version) := by
  refine ⟨expireSnapshots_ne_nil snapshots v, expireSnapshots_dropped snapshots v,
    List.getLast?_concat _, ?_⟩
  intro hs front rest hfr hfw
  have hmem : front ∈ snapshots.filter (fun e => e.version ≤ w) := by
    rw [hfr]
    simp [hfw]
  cases hfl : (snapshots.filter (fun e => e.version ≤ w)).getLast? with
  | none =>
    rw [List.getLast?_eq_none_iff] at hfl
    rw [hfl] at hmem
    simp at hmem
  | some e =>
    refine ⟨e, hfl, ?_, ?_⟩
    · have he : e ∈ snapshots.filter (fun x => x.version ≤ w) :=
        mem_of_getLast?_eq hfl
      have := List.mem_filter.mp he
      simpa using this.2
    · intro x hx hxw
      have hxf : x ∈ snapshots.filter (fun e => e.version ≤ w) := by
        rw [List.mem_filter]
        exact ⟨hx, by simpa using hxw⟩
      exact version_le_getLast _ (List.Pairwise.filter _ hs) e hfl x hxf

/-- Witness for C10: on the snapshot list `[{1}, {2}]`, a read at version 2
gets the snapshot at version 2, the newest one `≤ 2`. -/
theorem snapshots_never_empty_witness :
    ∃ e, getReadSnapshot [⟨1, true⟩, ⟨2, true⟩] 2 = some e ∧ e.version ≤ 2 ∧
      ∀ x ∈ [(⟨1, true⟩ : SnapshotEntry), ⟨2, true⟩], x.version ≤ 2 →
        x.version ≤ e.version :=
  (snapshots_never_empty [⟨1, true⟩, ⟨2, true⟩] 0 3 2).2.2.2 (by decide)
    ⟨1, true⟩ [⟨2, true⟩] rfl (by decide)

/-! ## C6: remap resolution on reads -/

theorem remapResolve_greatest :
    ∀ (m : List (Version × LPID)) (v : Version) (e : Version × LPID),
      m.Pairwise (fun a b => a.1 < b.1) → e ∈ m → e.1 ≤ v →
      (∀ e2 ∈ m, e2.1 ≤ v → e2.1 ≤ e.1) →
      (m.filter (fun x => x.1 ≤ v)).getLast? = some e := by
  intro m
  induction m with
  | nil => intro v e _ he; simp at he
  | cons a t ih =>
    intro v e hs he hev hmax
    obtain ⟨ha, ht⟩ := List.pairwise_cons.mp hs
    rcases List.mem_cons.mp he with h1 | h2
    · subst h1
      have hft : t.filter (fun x => x.1 ≤ v) = [] := by
        rw [List.filter_eq_nil_iff]
        intro x hx
        simp only [decide_eq_true_eq]
        intro hxv
        have hlt : e.1 < x.1 := ha x hx
        have hle : x.1 ≤ e.1 := hmax x (List.mem_cons_of_mem _ hx) hxv
        exact absurd hlt (not_lt.mpr hle)
      rw [List.filter_cons_of_pos (by simpa using hev), hft]
      rfl
    · have hae : a.1 < e.1 := ha e h2
      have hav : a.1 ≤ v := le_of_lt (lt_of_lt_of_le hae hev)
      rw [List.filter_cons_of_pos (by simpa using hav)]
      have hrec := ih v e ht h2 hev
        (fun e2 he2 hv2 => hmax e2 (List.mem_cons_of_mem _ he2) hv2)
      cases hft : t.filter (fun x => x.1 ≤ v) with
      | nil => rw [hft] at hrec; simp at hrec
      | cons b t2 =>
        rw [hft] at hrec
        rw [List.getLast?_cons_cons]
        exact hrec

/-- Resolution part of C6: `readPageAtVersion(pid, v)` reads `pid` itself when
the remap index has no entries for `pid` or none with version `≤ v`, and
otherwise reads the new LPID of the greatest entry whose version is `≤ v`. -/
theorem readPageAtVersion_resolution (s : PagerState) (pid : LPID) (v : Version) :
    (s.remappedPages.lookup pid = none → readPageAtVersion s pid v = pid) ∧
    (∀ m, s.remappedPages.lookup pid = some m →
      (∀ e ∈ m, ¬ (e.1 ≤ v)) → readPageAtVersion s pid v = pid) ∧
    (∀ m e, s.remappedPages.lookup pid = some m →
      m.Pairwise (fun a b => a.1 < b.1) → e ∈ m → e.1 ≤ v →
      (∀ e2 ∈ m, e2.1 ≤ v → e2.1 ≤ e.1) →
      readPageAtVersion s pid v = e.2) := by
  refine ⟨?_, ?_, ?_⟩
  · intro h
    simp [readPageAtVersion, h]
  · intro m hm hnone
    have hf : m.filter (fun x => x.1 ≤ v) = [] := by
      rw [List.filter_eq_nil_iff]
      intro x hx
      simpa using hnone x hx
    simp [readPageAtVersion, hm, remapResolve, hf]
  · intro m e hm hs2 he hev hmax
    simp [readPageAtVersion, hm, remapResolve,
      remapResolve_greatest m v e hs2 he hev hmax]

theorem newPageID_remappedPages (s : PagerState) :
    (newPageID s).2.remappedPages = s.remappedPages := by
  cases hf : s.freeList with
  | cons a t => simp [newPageID, hf]
  | nil =>
    cases hd : s.delayedFreeList with
    | nil => simp [newPageID, hf, hd]
    | cons e rest =>
      by_cases h : e.version ≤ effectiveOldestVersion s
      · simp [newPageID, hf, hd, h]
      · simp [newPageID, hf, hd, h]

theorem lookup_remapIndexInsert :
    ∀ (idx : List (LPID × List (Version × LPID))) (pid : LPID) (w : Version)
      (nid : LPID),
      (remapIndexInsert idx pid w nid).lookup pid =
        some (remapMapInsert ((idx.lookup pid).getD []) w nid) := by
  intro idx
  induction idx with
  | nil =>
    intro pid w nid
    simp only [remapIndexInsert, List.lookup, beq_self_eq_true]
    rfl
  | cons a t ih =>
    intro pid w nid
    obtain ⟨p, m⟩ := a
    by_cases h : p = pid
    · subst h
      simp [remapIndexInsert, List.lookup]
    · have hne : ¬ (pid == p) = true := by simpa using fun he => h he.symm
      simp only [remapIndexInsert, if_neg h, List.lookup, hne]
      simpa [List.lookup, hne] using ih pid w nid

theorem remapMapInsert_resolve :
    ∀ (m : List (Version × LPID)) (w v : Version) (nid : LPID),
      m.Pairwise (fun a b => a.1 < b.1) → (∀ e ∈ m, e.1 ≤ w) → w ≤ v →
      ((remapMapInsert m w nid).filter (fun x => x.1 ≤ v)).getLast? =
        some (w, nid) := by
  intro m
  induction m with
  | nil =>
    intro w v nid _ _ hwv
    rw [show remapMapInsert [] w nid = [(w, nid)] from rfl]
    simp [hwv]
  | cons a t ih =>
    intro w v nid hs hall hwv
    obtain ⟨ha, ht⟩ := List.pairwise_cons.mp hs
    have ha1w : a.1 ≤ w := hall a (List.mem_cons_self _ _)
    obtain ⟨a1, a2⟩ := a
    by_cases hlt : w < a1
    · exact absurd hlt (not_lt.mpr ha1w)
    · by_cases heq : w = a1
      · have ht0 : t = [] := by
          cases t with
          | nil => rfl
          | cons b t2 =>
            have h1 : a1 < b.1 := ha b (List.mem_cons_self _ _)
            have h2 : b.1 ≤ w := hall b (List.mem_cons_of_mem _ (List.mem_cons_self _ _))
            rw [← heq] at h1
            exact absurd h2 (not_le.mpr h1)
        subst ht0
        simp only [remapMapInsert, if_neg hlt, if_pos heq]
        have hav : a1 ≤ v := heq ▸ hwv
        simp [hwv, hav]
      · have hgt : a1 < w := lt_of_le_of_ne ha1w (fun h => heq h.symm)
        have hav : a1 ≤ v := le_of_lt (lt_of_lt_of_le hgt hwv)
        simp only [remapMapInsert, if_neg hlt, if_neg heq]
        rw [List.filter_cons_of_pos (by simpa using hav)]
        have hrec := ih w v nid ht
          (fun e he => hall e (List.mem_cons_of_mem _ he)) hwv
        cases hft : (remapMapInsert t w nid).filter (fun x => x.1 ≤ v) with
        | nil => rw [hft] at hrec; simp at hrec
        | cons b t2 =>
          rw [hft] at hrec
          rw [List.getLast?_cons_cons]
          exact hrec

/-- Atomic-update part of C6: `atomicUpdatePage(pid, data, w)` records the
remap `pid ↦ (w ↦ newID)`; immediately afterwards (so `w` is the newest remap
version for `pid`), every read of `pid` at a version `≥ w` resolves to the
freshly allocated replacement page. -/
theorem atomicUpdate_read_resolves (s : PagerState) (pid : LPID) (w v : Version)
    (hwv : w ≤ v)
    (hmax : ∀ m, s.remappedPages.lookup pid = some m →
      m.Pairwise (fun a b => a.1 < b.1) ∧ ∀ e ∈ m, e.1 ≤ w) :
    readPageAtVersion (atomicUpdatePage s pid w).2 pid v = (newPageID s).1 := by
  have hrp : (atomicUpdatePage s pid w).2.remappedPages =
      remapIndexInsert s.remappedPages pid w (newPageID s).1 := by
    simp [atomicUpdatePage, newPageID_remappedPages]
  have hm0 : ((s.remappedPages.lookup pid).getD []).Pairwise
        (fun a b => a.1 < b.1) ∧
      ∀ e ∈ (s.remappedPages.lookup pid).getD [], e.1 ≤ w := by
    cases hl : s.remappedPages.lookup pid with
    | none => simp
    | some m => simpa using hmax m hl
  simp [readPageAtVersion, hrp, lookup_remapIndexInsert, remapResolve,
    remapMapInsert_resolve _ w v (newPageID s).1 hm0.1 hm0.2 hwv]

/-- Concrete check of the atomic-update part: after an atomic update of page 4
at version 3 (newest for that page), a read at version 5 resolves to the newly
allocated page 11 taken from the free list. -/
theorem atomicUpdate_read_resolves_example :
    readPageAtVersion
      (atomicUpdatePage ⟨[11], [], [], [(4, [(2, 9)])], 12, 5, [⟨5, true⟩]⟩ 4 3).2
      4 5 = 11 :=
  atomicUpdate_read_resolves _ 4 3 5 (by decide)
    (by
      intro m hm
      have hm2 : m = [(2, 9)] := by
        simpa [List.lookup] using hm.symm
      subst hm2
      exact ⟨by decide, by decide⟩)

/-- C6: `readPageAtVersion(pid, v, ...)` resolves through the remap index —
it reads the new LPID of the greatest remap entry for `pid` with version
`≤ v`, and `pid` itself when the index has no entry for `pid` or none with
version `≤ v`; consequently, right after an atomic update of `pid` at version
`w` (so `w` is the newest remap version for `pid`), reads at any version
`≥ w` resolve `pid` to the freshly allocated replacement LPID. -/
theorem readPageAtVersion_remap_spec (s : PagerState) (pid : LPID) (v : Version) :
    (s.remappedPages.lookup pid = none → readPageAtVersion s pid v = pid) ∧
    (∀ m, s.remappedPages.lookup pid = some m →
      (∀ e ∈ m, ¬ (e.1 ≤ v)) → readPageAtVersion s pid v = pid) ∧
    (∀ m e, s.remappedPages.lookup pid = some m →
      m.Pairwise (fun a b => a.1 < b.1) → e ∈ m → e.1 ≤ v →
      (∀ e2 ∈ m, e2.1 ≤ v → e2.1 ≤ e.1) →
      readPageAtVersion s pid v = e.2) ∧
    (∀ w, w ≤ v →
      (∀ m, s.remappedPages.lookup pid = some m →
        m.Pairwise (fun a b => a.1 < b.1) ∧ ∀ e ∈ m, e.1 ≤ w) →
      readPageAtVersion (atomicUpdatePage s pid w).2 pid v = (newPageID s).1) :=
  ⟨(readPageAtVersion_resolution s pid v).1,
   (readPageAtVersion_resolution s pid v).2.1,
   (readPageAtVersion_resolution s pid v).2.2,
   fun w hwv hmax => atomicUpdate_read_resolves s pid w v hwv hmax⟩

/-- Witness for C6: with remaps `{4 ↦ {2 ↦ 9, 6 ↦ 10}}`, a read of page 4 at
version 7 reads page 10, the replacement from the greatest remap version
`≤ 7`. -/
theorem readPageAtVersion_remap_spec_witness :
    readPageAtVersion ⟨[], [], [], [(4, [(2, 9), (6, 10)])], 12, 5, [⟨5, true⟩]⟩
      4 7 = 10 :=
  (readPageAtVersion_remap_spec _ 4 7).2.2.1 [(2, 9), (6, 10)] (6, 10)
    (by decide) (by decide) (by decide) (by decide) (by decide)

/-! ## C1: readRange limits, direction and result flags -/

@[simp]
theorem bytesOf_nil : bytesOf [] = 0 := rfl

@[simp]
theorem bytesOf_cons (a : KV) (l : List KV) :
    bytesOf (a :: l) = kvExpectedSize a + bytesOf l := by
  simp [bytesOf]

theorem readRangeFwdLoop_spec (byteLimit : Int) :
    ∀ (l : List KV) (rl acc : Int) (res : List KV) (rlf accf : Int),
      1 ≤ rl → acc < byteLimit →
      readRangeFwdLoop byteLimit l rl acc = (res, rlf, accf) →
      res = l.take res.length ∧
      (res.length : Int) ≤ rl ∧
      rlf = rl - res.length ∧
      accf = acc + (bytesOf res : Int) ∧
      (res.length = l.length ∨ rlf = 0 ∨ accf ≥ byteLimit) ∧
      (∀ n, n < res.length →
        ((n : Int) < rl ∧ acc + (bytesOf (l.take n) : Int) < byteLimit)) := by
  intro l
  induction l with
  | nil =>
    intro rl acc res rlf accf hrl hacc hloop
    have hstep : readRangeFwdLoop byteLimit [] rl acc = ([], rl, acc) := rfl
    rw [hstep] at hloop
    simp only [Prod.mk.injEq] at hloop
    obtain ⟨rfl, rfl, rfl⟩ := hloop
    refine ⟨rfl, by simp; omega, by simp, by simp, Or.inl rfl, ?_⟩
    intro n hn
    simp at hn
  | cons kv rest ih =>
    intro rl acc res rlf accf hrl hacc hloop
    by_cases hstop : rl - 1 = 0 ∨ acc + (kvExpectedSize kv : Int) ≥ byteLimit
    · have hstep : readRangeFwdLoop byteLimit (kv :: rest) rl acc =
          ([kv], rl - 1, acc + (kvExpectedSize kv : Int)) := by
        simp [readRangeFwdLoop, hstop]
      rw [hstep] at hloop
      simp only [Prod.mk.injEq] at hloop
      obtain ⟨rfl, rfl, rfl⟩ := hloop
      refine ⟨by simp, by simpa using hrl, by simp, by simp, ?_, ?_⟩
      · rcases hstop with h | h
        · exact Or.inr (Or.inl h)
        · refine Or.inr (Or.inr ?_)
          simpa using h
      · intro n hn
        have hn0 : n = 0 := by simpa using Nat.lt_one_iff.mp hn
        subst hn0
        exact ⟨by exact_mod_cast hrl, by simpa using hacc⟩
    · push_neg at hstop
      obtain ⟨hne, hlt⟩ := hstop
      have hrl1 : 1 ≤ rl - 1 := by omega
      obtain ⟨i1, i2, i3, i4, i5, i6⟩ :=
        ih (rl - 1) (acc + (kvExpectedSize kv : Int))
          (readRangeFwdLoop byteLimit rest (rl - 1)
            (acc + (kvExpectedSize kv : Int))).1
          (readRangeFwdLoop byteLimit rest (rl - 1)
            (acc + (kvExpectedSize kv : Int))).2.1
          (readRangeFwdLoop byteLimit rest (rl - 1)
            (acc + (kvExpectedSize kv : Int))).2.2
          hrl1 hlt rfl
      have hcond : ¬ (rl - 1 = 0 ∨ acc + (kvExpectedSize kv : Int) ≥ byteLimit) := by
        push_neg
        exact ⟨hne, hlt⟩
      have hstep : readRangeFwdLoop byteLimit (kv :: rest) rl acc =
          (kv :: (readRangeFwdLoop byteLimit rest (rl - 1)
              (acc + (kvExpectedSize kv : Int))).1,
            (readRangeFwdLoop byteLimit rest (rl - 1)
              (acc + (kvExpectedSize kv : Int))).2.1,
            (readRangeFwdLoop byteLimit rest (rl - 1)
              (acc + (kvExpectedSize kv : Int))).2.2) := by
        simp [readRangeFwdLoop, hcond]
      rw [hstep] at hloop
      simp only [Prod.mk.injEq] at hloop
      obtain ⟨rfl, rfl, rfl⟩ := hloop
      refine ⟨?_, ?_, ?_, ?_, ?_, ?_⟩
      · simpa [List.take_succ_cons] using congrArg (List.cons kv) i1
      · simp only [List.length_cons]
        push_cast
        omega
      · rw [i3]
        simp only [List.length_cons]
        push_cast
        ring
      · rw [i4]
        simp only [bytesOf_cons]
        push_cast
        ring
      · rcases i5 with h | h | h
        · exact Or.inl (by simp [h])
        · exact Or.inr (Or.inl h)
        · exact Or.inr (Or.inr h)
      · intro n hn
        cases n with
        | zero =>
          exact ⟨by exact_mod_cast hrl, by simpa using hacc⟩
        | succ m =>
          have hm : m < (readRangeFwdLoop byteLimit rest (rl - 1)
              (acc + (kvExpectedSize kv : Int))).1.length := by
            simpa using hn
          obtain ⟨j1, j2⟩ := i6 m hm
          constructor
          · push_cast
            omega
          · simpa [List.take_succ_cons, add_assoc] using j2

theorem readRangeRevLoop_spec (byteLimit : Int) :
    ∀ (l : List KV) (rl acc : Int) (res : List KV) (rlf accf : Int),
      rl ≤ -1 → acc < byteLimit →
      readRangeRevLoop byteLimit l rl acc = (res, rlf, accf) →
      res = l.take res.length ∧
      (res.length : Int) ≤ -rl ∧
      rlf = rl + res.length ∧
      accf = acc + (bytesOf res : Int) ∧
      (res.length = l.length ∨ rlf = 0 ∨ accf ≥ byteLimit) ∧
      (∀ n, n < res.length →
        ((n : Int) < -rl ∧ acc + (bytesOf (l.take n) : Int) < byteLimit)) := by
  intro l
  induction l with
  | nil =>
    intro rl acc res rlf accf hrl hacc hloop
    have hstep : readRangeRevLoop byteLimit [] rl acc = ([], rl, acc) := rfl
    rw [hstep] at hloop
    simp only [Prod.mk.injEq] at hloop
    obtain ⟨rfl, rfl, rfl⟩ := hloop
    refine ⟨rfl, by simp; omega, by simp, by simp, Or.inl rfl, ?_⟩
    intro n hn
    simp at hn
  | cons kv rest ih =>
    intro rl acc res rlf accf hrl hacc hloop
    by_cases hstop : rl + 1 = 0 ∨ acc + (kvExpectedSize kv : Int) ≥ byteLimit
    · have hstep : readRangeRevLoop byteLimit (kv :: rest) rl acc =
          ([kv], rl + 1, acc + (kvExpectedSize kv : Int)) := by
        simp [readRangeRevLoop, hstop]
      rw [hstep] at hloop
      simp only [Prod.mk.injEq] at hloop
      obtain ⟨rfl, rfl, rfl⟩ := hloop
      refine ⟨by simp, by simp; omega, by simp, by simp, ?_, ?_⟩
      · rcases hstop with h | h
        · exact Or.inr (Or.inl h)
        · refine Or.inr (Or.inr ?_)
          simpa using h
      · intro n hn
        have hn0 : n = 0 := by simpa using Nat.lt_one_iff.mp hn
        subst hn0
        exact ⟨by push_cast; omega, by simpa using hacc⟩
    · push_neg at hstop
      obtain ⟨hne, hlt⟩ := hstop
      have hrl1 : rl + 1 ≤ -1 := by
        rcases lt_or_eq_of_le hrl with h | h
        · omega
        · exact absurd (by omega : rl + 1 = 0) hne
      obtain ⟨i1, i2, i3, i4, i5, i6⟩ :=
        ih (rl + 1) (acc + (kvExpectedSize kv : Int))
          (readRangeRevLoop byteLimit rest (rl + 1)
            (acc + (kvExpectedSize kv : Int))).1
          (readRangeRevLoop byteLimit rest (rl + 1)
            (acc + (kvExpectedSize kv : Int))).2.1
          (readRangeRevLoop byteLimit rest (rl + 1)
            (acc + (kvExpectedSize kv : Int))).2.2
          hrl1 hlt rfl
      have hcond : ¬ (rl + 1 = 0 ∨ acc + (kvExpectedSize kv : Int) ≥ byteLimit) := by
        push_neg
        exact ⟨hne, hlt⟩
      have hstep : readRangeRevLoop byteLimit (kv :: rest) rl acc =
          (kv :: (readRangeRevLoop byteLimit rest (rl + 1)
              (acc + (kvExpectedSize kv : Int))).1,
            (readRangeRevLoop byteLimit rest (rl + 1)
              (acc + (kvExpectedSize kv : Int))).2.1,
            (readRangeRevLoop byteLimit rest (rl + 1)
              (acc + (kvExpectedSize kv : Int))).2.2) := by
        simp [readRangeRevLoop, hcond]
      rw [hstep] at hloop
      simp only [Prod.mk.injEq] at hloop
      obtain ⟨rfl, rfl, rfl⟩ := hloop
      refine ⟨?_, ?_, ?_, ?_, ?_, ?_⟩
      · simpa [List.take_succ_cons] using congrArg (List.cons kv) i1
      · simp only [List.length_cons]
        push_cast
        omega
      · rw [i3]
        simp only [List.length_cons]
        push_cast
        ring
      · rw [i4]
        simp only [bytesOf_cons]
        push_cast
        ring
      · rcases i5 with h | h | h
        · exact Or.inl (by simp [h])
        · exact Or.inr (Or.inl h)
        · exact Or.inr (Or.inr h)
      · intro n hn
        cases n with
        | zero =>
          exact ⟨by push_cast; omega, by simpa using hacc⟩
        | succ m =>
          have hm : m < (readRangeRevLoop byteLimit rest (rl + 1)
              (acc + (kvExpectedSize kv : Int))).1.length := by
            simpa using hn
          obtain ⟨j1, j2⟩ := i6 m hm
          constructor
          · push_cast
            omega
          · simpa [List.take_succ_cons, add_assoc] using j2

/-- C1: `readRange_impl` over a sorted committed store (requires
`byteLimit > 0`, the source assertion): a zero row limit yields the empty
result; a positive row limit accumulates the in-range records in forward key
order and a negative one in reverse key order; accumulation stops as soon as
`|rowLimit|` records are taken or the byte count reaches `byteLimit`, with the
crossing record included; `more` is set exactly when a limit stopped
accumulation, and then `readThrough` is the key of the last record
returned. -/
theorem readRange_spec (store : List KV) (bk ek : Key) (rowLimit byteLimit : Int)
    (hsort : sortedByKey store) (hbyte : 0 < byteLimit) :
    (rowLimit = 0 →
      readRange_impl store bk ek rowLimit byteLimit = some ⟨[], false, none⟩) ∧
    (∀ res, 0 < rowLimit →
      readRange_impl store bk ek rowLimit byteLimit = some res →
      ReadRangeFwdClaim store bk ek rowLimit byteLimit res) ∧
    (∀ res, rowLimit < 0 →
      readRange_impl store bk ek rowLimit byteLimit = some res →
      ReadRangeRevClaim store bk ek rowLimit byteLimit res) := by
  refine ⟨?_, ?_, ?_⟩
  · intro h0
    simp [readRange_impl, hbyte, h0]
  · intro res hpos himpl
    have hne : ¬ rowLimit = 0 := by omega
    unfold readRange_impl at himpl
    rw [if_pos hbyte, if_neg hne, if_pos hpos] at himpl
    have hres := (Option.some.inj himpl).symm
    subst hres
    obtain ⟨h1, h2, h3, h4, h5, h6⟩ :=
      readRangeFwdLoop_spec byteLimit
        (store.filter (fun r => keyLe bk r.key && keyLt r.key ek)) rowLimit 0
        (readRangeFwdLoop byteLimit
          (store.filter (fun r => keyLe bk r.key && keyLt r.key ek)) rowLimit 0).1
        (readRangeFwdLoop byteLimit
          (store.filter (fun r => keyLe bk r.key && keyLt r.key ek)) rowLimit 0).2.1
        (readRangeFwdLoop byteLimit
          (store.filter (fun r => keyLe bk r.key && keyLt r.key ek)) rowLimit 0).2.2
        (by omega) hbyte rfl
    have hpw : (store.filter
        (fun r => keyLe bk r.key && keyLt r.key ek)).Pairwise
        (fun a b => keyLt a.key b.key = true) := List.Pairwise.filter _ hsort
    dsimp only [ReadRangeFwdClaim, ReadRangeStops]
    refine ⟨⟨h1, ?_, ?_, ?_, ?_, ?_, ?_⟩, ?_, ?_⟩
    · omega
    · intro n hn
      obtain ⟨j1, j2⟩ := h6 n hn
      exact ⟨by omega, by simpa using j2⟩
    · rcases h5 with h | h | h
      · exact Or.inl h
      · refine Or.inr (Or.inl ?_)
        omega
      · refine Or.inr (Or.inr ?_)
        rw [h4] at h
        simpa using h
    · constructor
      · intro hm
        have hp := of_decide_eq_true hm
        rcases hp with h | h
        · exact Or.inl (by omega)
        · refine Or.inr ?_
          rw [h4] at h
          simpa using h
      · intro hp
        apply decide_eq_true
        rcases hp with h | h
        · exact Or.inl (by omega)
        · refine Or.inr ?_
          rw [h4]
          simpa using h
    · intro hm
      have hp := of_decide_eq_true hm
      simp only [if_pos hp]
    · intro hm
      have hp : ¬ ((readRangeFwdLoop byteLimit
          (store.filter (fun r => keyLe bk r.key && keyLt r.key ek))
          rowLimit 0).2.1 = 0 ∨
          (readRangeFwdLoop byteLimit
            (store.filter (fun r => keyLe bk r.key && keyLt r.key ek))
            rowLimit 0).2.2 ≥ byteLimit) := by
        intro hp
        rw [decide_eq_true hp] at hm
        simp at hm
      simp only [if_neg hp]
    · rw [h1]
      exact List.Pairwise.sublist (List.take_sublist _ _) hpw
    · intro r hr
      rw [h1] at hr
      have hr2 := (List.take_sublist _ _).mem hr
      have := List.mem_filter.mp hr2
      have hb := this.2
      simp only [Bool.and_eq_true] at hb
      exact hb
  · intro res hneg himpl
    have hne : ¬ rowLimit = 0 := by omega
    have hng : ¬ rowLimit > 0 := by omega
    unfold readRange_impl at himpl
    rw [if_pos hbyte, if_neg hne, if_neg hng] at himpl
    have hres := (Option.some.inj himpl).symm
    subst hres
    obtain ⟨h1, h2, h3, h4, h5, h6⟩ :=
      readRangeRevLoop_spec byteLimit
        ((store.filter (fun r => keyLe bk r.key && keyLt r.key ek)).reverse)
        rowLimit 0
        (readRangeRevLoop byteLimit
          ((store.filter (fun r => keyLe bk r.key && keyLt r.key ek)).reverse)
          rowLimit 0).1
        (readRangeRevLoop byteLimit
          ((store.filter (fun r => keyLe bk r.key && keyLt r.key ek)).reverse)
          rowLimit 0).2.1
        (readRangeRevLoop byteLimit
          ((store.filter (fun r => keyLe bk r.key && keyLt r.key ek)).reverse)
          rowLimit 0).2.2
        (by omega) hbyte rfl
    have hpw : ((store.filter
        (fun r => keyLe bk r.key && keyLt r.key ek)).reverse).Pairwise
        (fun a b => keyLt b.key a.key = true) := by
      rw [List.pairwise_reverse]
      exact List.Pairwise.filter _ hsort
    dsimp only [ReadRangeRevClaim, ReadRangeStops]
    refine ⟨⟨h1, ?_, ?_, ?_, ?_, ?_, ?_⟩, ?_, ?_⟩
    · omega
    · intro n hn
      obtain ⟨j1, j2⟩ := h6 n hn
      exact ⟨by omega, by simpa using j2⟩
    · rcases h5 with h | h | h
      · exact Or.inl h
      · refine Or.inr (Or.inl ?_)
        omega
      · refine Or.inr (Or.inr ?_)
        rw [h4] at h
        simpa using h
    · constructor
      · intro hm
        have hp := of_decide_eq_true hm
        rcases hp with h | h
        · exact Or.inl (by omega)
        · refine Or.inr ?_
          rw [h4] at h
          simpa using h
      · intro hp
        apply decide_eq_true
        rcases hp with h | h
        · exact Or.inl (by omega)
        · refine Or.inr ?_
          rw [h4]
          simpa using h
    · intro hm
      have hp := of_decide_eq_true hm
      simp only [if_pos hp]
    · intro hm
      have hp : ¬ ((readRangeRevLoop byteLimit
          ((store.filter (fun r => keyLe bk r.key && keyLt r.key ek)).reverse)
          rowLimit 0).2.1 = 0 ∨
          (readRangeRevLoop byteLimit
            ((store.filter (fun r => keyLe bk r.key && keyLt r.key ek)).reverse)
            rowLimit 0).2.2 ≥ byteLimit) := by
        intro hp
        rw [decide_eq_true hp] at hm
        simp at hm
      simp only [if_neg hp]
    · rw [h1]
      exact List.Pairwise.sublist (List.take_sublist _ _) hpw
    · intro r hr
      rw [h1] at hr
      have hr2 := (List.take_sublist _ _).mem hr
      rw [List.mem_reverse] at hr2
      have := List.mem_filter.mp hr2
      have hb := this.2
      simp only [Bool.and_eq_true] at hb
      exact hb

/-- Witness for C1: a forward read with row limit 2 over a three-record store
returns the first two records in key order with `more = true` and
`readThrough` the key of the second. -/
theorem readRange_spec_witness :
    ReadRangeFwdClaim [⟨[1], [7]⟩, ⟨[2], [8]⟩, ⟨[3], [9]⟩] [] [9] 2 100
      ⟨[⟨[1], [7]⟩, ⟨[2], [8]⟩], true, some [2]⟩ :=
  (readRange_spec [⟨[1], [7]⟩, ⟨[2], [8]⟩, ⟨[3], [9]⟩] [] [9] 2 100
    (by unfold sortedByKey; decide) (by decide)).2.1 ⟨[⟨[1], [7]⟩, ⟨[2], [8]⟩], true, some [2]⟩
    (by decide) (by decide)

/-! ## C2: set, clear, commit, read back absent

Structure lemmas about the mutation buffer operations, sufficient conditions
for the leaf merge to erase a key, and the composed claim. -/

theorem mem_mbInsertFrom_elim :
    ∀ (mb : MutationBuffer) (prev : RangeMutation) (k : Key)
      (p : Key × RangeMutation),
      p ∈ mbInsertFrom prev k mb → p ∈ mb ∨ p.1 = k := by
  intro mb
  induction mb with
  | nil =>
    intro prev k p hp
    simp only [mbInsertFrom] at hp
    rcases List.mem_singleton.mp hp with rfl
    exact Or.inr rfl
  | cons hd rest ih =>
    intro prev k p hp
    obtain ⟨k1, m1⟩ := hd
    simp only [mbInsertFrom] at hp
    by_cases he : k = k1
    · rw [if_pos he] at hp
      exact Or.inl hp
    · rw [if_neg he] at hp
      by_cases hlt : keyLt k k1 = true
      · rw [if_pos hlt] at hp
        rcases List.mem_cons.mp hp with h1 | h2
        · exact Or.inr (by rw [h1])
        · exact Or.inl h2
      · rw [if_neg hlt] at hp
        rcases List.mem_cons.mp hp with h1 | h2
        · exact Or.inl (h1 ▸ List.mem_cons_self _ _)
        · rcases ih m1 k p h2 with h3 | h3
          · exact Or.inl (List.mem_cons_of_mem _ h3)
          · exact Or.inr h3

theorem mbInsertFrom_mem_self :
    ∀ (mb : MutationBuffer) (prev : RangeMutation) (k : Key),
      ∃ m, (k, m) ∈ mbInsertFrom prev k mb := by
  intro mb
  induction mb with
  | nil =>
    intro prev k
    exact ⟨_, List.mem_singleton.mpr rfl⟩
  | cons hd rest ih =>
    intro prev k
    obtain ⟨k1, m1⟩ := hd
    simp only [mbInsertFrom]
    by_cases he : k = k1
    · rw [if_pos he]
      exact ⟨m1, by rw [he]; exact List.mem_cons_self _ _⟩
    · rw [if_neg he]
      by_cases hlt : keyLt k k1 = true
      · rw [if_pos hlt]
        exact ⟨_, List.mem_cons_self _ _⟩
      · rw [if_neg hlt]
        obtain ⟨m, hm⟩ := ih m1 k
        exact ⟨m, List.mem_cons_of_mem _ hm⟩

theorem mem_mbInsertFrom_of_mem :
    ∀ (mb : MutationBuffer) (prev : RangeMutation) (k : Key)
      (p : Key × RangeMutation),
      p ∈ mb → p ∈ mbInsertFrom prev k mb := by
  intro mb
  induction mb with
  | nil =>
    intro prev k p hp
    simp at hp
  | cons hd rest ih =>
    intro prev k p hp
    obtain ⟨k1, m1⟩ := hd
    simp only [mbInsertFrom]
    by_cases he : k = k1
    · rw [if_pos he]
      exact hp
    · rw [if_neg he]
      by_cases hlt : keyLt k k1 = true
      · rw [if_pos hlt]
        exact List.mem_cons_of_mem _ hp
      · rw [if_neg hlt]
        rcases List.mem_cons.mp hp with h1 | h2
        · exact h1 ▸ List.mem_cons_self _ _
        · exact List.mem_cons_of_mem _ (ih m1 k p h2)

theorem mbSorted_mbInsertFrom :
    ∀ (mb : MutationBuffer) (prev : RangeMutation) (k : Key),
      mbSorted mb → mbSorted (mbInsertFrom prev k mb) := by
  intro mb
  induction mb with
  | nil =>
    intro prev k _
    exact List.pairwise_singleton _ _
  | cons hd rest ih =>
    intro prev k hs
    obtain ⟨k1, m1⟩ := hd
    obtain ⟨hhd, hrest⟩ := List.pairwise_cons.mp hs
    simp only [mbInsertFrom]
    by_cases he : k = k1
    · rw [if_pos he]
      exact hs
    · rw [if_neg he]
      by_cases hlt : keyLt k k1 = true
      · rw [if_pos hlt]
        refine List.pairwise_cons.mpr ⟨?_, hs⟩
        intro q hq
        rcases List.mem_cons.mp hq with h1 | h2
        · rw [h1]
          exact hlt
        · exact keyLt_trans hlt (hhd q h2)
      · rw [if_neg hlt]
        have hk1k : keyLt k1 k = true := by
          by_cases h2 : keyLt k1 k = true
          · exact h2
          · exact absurd (keyLt_conn (by simpa using h2)
              (by simpa using hlt)).symm he
        refine List.pairwise_cons.mpr ⟨?_, ih m1 k hrest⟩
        intro q hq
        rcases mem_mbInsertFrom_elim rest m1 k q hq with h1 | h1
        · exact hhd q h1
        · rw [h1]
          exact hk1k

theorem map_fst_mbModify :
    ∀ (mb : MutationBuffer) (k : Key) (f : RangeMutation → RangeMutation),
      (mbModify k f mb).map Prod.fst = mb.map Prod.fst := by
  intro mb
  induction mb with
  | nil => intro k f; rfl
  | cons hd rest ih =>
    intro k f
    obtain ⟨k1, m1⟩ := hd
    simp only [mbModify]
    by_cases he : k = k1
    · rw [if_pos he]
      simp
    · rw [if_neg he]
      simp [ih k f]

theorem mbSorted_iff_map (l : MutationBuffer) :
    mbSorted l ↔ (l.map Prod.fst).Pairwise (fun a b => keyLt a b = true) := by
  rw [List.pairwise_map]
  exact Iff.rfl

theorem mbSorted_mbModify (mb : MutationBuffer) (k : Key)
    (f : RangeMutation → RangeMutation) (hs : mbSorted mb) :
    mbSorted (mbModify k f mb) := by
  rw [mbSorted_iff_map, map_fst_mbModify]
  exact (mbSorted_iff_map mb).mp hs

theorem mem_mbModify_self :
    ∀ (mb : MutationBuffer) (k : Key) (m : RangeMutation)
      (f : RangeMutation → RangeMutation),
      mbSorted mb → (k, m) ∈ mb → (k, f m) ∈ mbModify k f mb := by
  intro mb
  induction mb with
  | nil =>
    intro k m f _ hm
    simp at hm
  | cons hd rest ih =>
    intro k m f hs hm
    obtain ⟨k1, m1⟩ := hd
    obtain ⟨hhd, hrest⟩ := List.pairwise_cons.mp hs
    simp only [mbModify]
    by_cases he : k = k1
    · rw [if_pos he]
      have hm1 : m = m1 := by
        rcases List.mem_cons.mp hm with h1 | h2
        · exact congrArg Prod.snd h1
        · have := hhd _ h2
          rw [he] at this
          exact absurd this (by simp [keyLt_irrefl])
      rw [hm1, he]
      exact List.mem_cons_self _ _
    · rw [if_neg he]
      have hm2 : (k, m) ∈ rest := by
        rcases List.mem_cons.mp hm with h1 | h2
        · exact absurd (congrArg Prod.fst h1) he
        · exact h2
      exact List.mem_cons_of_mem _ (ih k m f hrest hm2)

theorem mem_mbModify_of_ne :
    ∀ (mb : MutationBuffer) (k : Key) (f : RangeMutation → RangeMutation)
      (p : Key × RangeMutation),
      p ∈ mb → p.1 ≠ k → p ∈ mbModify k f mb := by
  intro mb
  induction mb with
  | nil =>
    intro k f p hp
    simp at hp
  | cons hd rest ih =>
    intro k f p hp hne
    obtain ⟨k1, m1⟩ := hd
    simp only [mbModify]
    by_cases he : k = k1
    · rw [if_pos he]
      rcases List.mem_cons.mp hp with h1 | h2
      · exact absurd (by rw [h1, ← he]) hne
      · exact List.mem_cons_of_mem _ h2
    · rw [if_neg he]
      rcases List.mem_cons.mp hp with h1 | h2
      · exact h1 ▸ List.mem_cons_self _ _
      · exact List.mem_cons_of_mem _ (ih k f p h2 hne)

theorem mem_mbModify_elim :
    ∀ (mb : MutationBuffer) (k : Key) (f : RangeMutation → RangeMutation)
      (p : Key × RangeMutation),
      p ∈ mbModify k f mb → p ∈ mb ∨ ∃ m, (k, m) ∈ mb ∧ p = (k, f m) := by
  intro mb
  induction mb with
  | nil =>
    intro k f p hp
    simp [mbModify] at hp
  | cons hd rest ih =>
    intro k f p hp
    obtain ⟨k1, m1⟩ := hd
    simp only [mbModify] at hp
    by_cases he : k = k1
    · rw [if_pos he] at hp
      rcases List.mem_cons.mp hp with h1 | h2
      · exact Or.inr ⟨m1, by rw [he]; exact List.mem_cons_self _ _, by rw [h1, he]⟩
      · exact Or.inl (List.mem_cons_of_mem _ h2)
    · rw [if_neg he] at hp
      rcases List.mem_cons.mp hp with h1 | h2
      · exact Or.inl (h1 ▸ List.mem_cons_self _ _)
      · rcases ih k f p h2 with h3 | ⟨m, hm, hpm⟩
        · exact Or.inl (List.mem_cons_of_mem _ h3)
        · exact Or.inr ⟨m, List.mem_cons_of_mem _ hm, hpm⟩

theorem mbSorted_key_unique :
    ∀ (l : MutationBuffer), mbSorted l →
      ∀ (a b : Key × RangeMutation), a ∈ l → b ∈ l → a.1 = b.1 → a = b := by
  intro l
  induction l with
  | nil =>
    intro _ a b ha
    simp at ha
  | cons hd rest ih =>
    intro hs a b ha hb hab
    obtain ⟨hhd, hrest⟩ := List.pairwise_cons.mp hs
    rcases List.mem_cons.mp ha with ha1 | ha2
    · rcases List.mem_cons.mp hb with hb1 | hb2
      · rw [ha1, hb1]
      · have := hhd b hb2
        rw [← ha1, hab] at this
        exact absurd this (by simp [keyLt_irrefl])
    · rcases List.mem_cons.mp hb with hb1 | hb2
      · have := hhd a ha2
        rw [← hb1, ← hab] at this
        exact absurd this (by simp [keyLt_irrefl])
      · exact ih hrest a b ha2 hb2 hab

theorem mbSorted_getLast_max :
    ∀ (l : MutationBuffer), mbSorted l →
      ∀ (x : Key × RangeMutation), x ∈ l →
      (∀ p ∈ l, p ≠ x → keyLt p.1 x.1 = true) →
      l.getLast? = some x := by
  intro l
  induction l with
  | nil =>
    intro _ x hx
    simp at hx
  | cons hd rest ih =>
    intro hs x hx hmax
    obtain ⟨hhd, hrest⟩ := List.pairwise_cons.mp hs
    cases hre : rest with
    | nil =>
      subst hre
      rcases List.mem_cons.mp hx with h1 | h2
      · simp [h1]
      · simp at h2
    | cons b rest2 =>
      subst hre
      rcases List.mem_cons.mp hx with h1 | h2
      · exfalso
        have hb : keyLt hd.1 b.1 = true := hhd b (List.mem_cons_self _ _)
        by_cases hbe : b = x
        · rw [hbe, h1] at hb
          simp [keyLt_irrefl] at hb
        · have hbx := hmax b (List.mem_cons_of_mem _ (List.mem_cons_self _ _)) hbe
          rw [h1] at hbx
          rw [keyLt_asymm hbx] at hb
          exact Bool.false_ne_true hb
      · rw [List.getLast?_cons_cons]
        exact ih hrest x h2
          (fun p hp hpx => hmax p (List.mem_cons_of_mem _ hp) hpx)

theorem coversCleared_of_all_gt (k endKey : Key) :
    ∀ (bs : List (Key × RangeMutation)),
      (∀ p ∈ bs, keyLt k p.1 = true) → CoversCleared k endKey bs := by
  intro bs
  induction bs with
  | nil => intro _; trivial
  | cons hd rest ih =>
    intro hgt
    obtain ⟨bk, bm⟩ := hd
    refine ⟨?_, ?_, ih (fun p hp => hgt p (List.mem_cons_of_mem _ hp))⟩
    · intro he
      have := hgt (bk, bm) (List.mem_cons_self _ _)
      rw [he] at this
      simp [keyLt_irrefl] at this
    · intro hlt
      have := hgt (bk, bm) (List.mem_cons_self _ _)
      simp only at this
      rw [keyLt_asymm this] at hlt
      exact absurd hlt (by simp)

theorem coversCleared_of_boundary (k endKey : Key) :
    ∀ (bs : List (Key × RangeMutation)) (m : RangeMutation),
      mbSorted bs → (k, m) ∈ bs →
      m.boundaryChanged = true → m.boundarySet = false →
      CoversCleared k endKey bs := by
  intro bs
  induction bs with
  | nil =>
    intro m _ hm
    simp at hm
  | cons hd rest ih =>
    intro m hs hm hch hset
    obtain ⟨bk, bm⟩ := hd
    obtain ⟨hhd, hrest⟩ := List.pairwise_cons.mp hs
    rcases List.mem_cons.mp hm with h1 | h2
    · have hbk : bk = k := (congrArg Prod.fst h1).symm
      have hbm : bm = m := (congrArg Prod.snd h1).symm
      refine ⟨fun _ => ⟨hbm ▸ hch, hbm ▸ hset⟩, ?_, ?_⟩
      · intro hlt
        rw [hbk] at hlt
        simp [keyLt_irrefl] at hlt
      · refine coversCleared_of_all_gt k endKey rest ?_
        intro p hp
        have := hhd p hp
        rw [hbk] at this
        exact this
    · have hbk : keyLt bk k = true := by
        have := hhd (k, m) h2
        exact this
      refine ⟨?_, ?_, ih m hrest h2 hch hset⟩
      · intro he
        rw [he] at hbk
        simp [keyLt_irrefl] at hbk
      · intro _ hnext
        exfalso
        cases hre : rest with
        | nil =>
          subst hre
          simp at h2
        | cons q rest2 =>
          subst hre
          obtain ⟨q1, q2⟩ := q
          have hnext2 : keyLt k q1 = true := hnext
          rcases List.mem_cons.mp h2 with hq1 | hq2
          · have hq1k : k = q1 := congrArg Prod.fst hq1
            rw [← hq1k] at hnext2
            simp [keyLt_irrefl] at hnext2
          · have hqk : keyLt q1 k = true :=
              (List.pairwise_cons.mp hrest).1 (k, m) hq2
            rw [keyLt_asymm hqk] at hnext2
            exact Bool.false_ne_true hnext2

theorem coversCleared_of_clearAfter (k endKey cb : Key) :
    ∀ (bs : List (Key × RangeMutation)) (m : RangeMutation),
      mbSorted bs → (cb, m) ∈ bs →
      m.clearAfterBoundary = true → keyLt cb k = true →
      (∀ p ∈ bs, ¬ (keyLt cb p.1 = true ∧ keyLe p.1 k = true)) →
      CoversCleared k endKey bs := by
  intro bs
  induction bs with
  | nil =>
    intro m _ hm
    simp at hm
  | cons hd rest ih =>
    intro m hs hm hca hck hnone
    obtain ⟨bk, bm⟩ := hd
    obtain ⟨hhd, hrest⟩ := List.pairwise_cons.mp hs
    rcases List.mem_cons.mp hm with h1 | h2
    · have hbk : bk = cb := (congrArg Prod.fst h1).symm
      have hbm : bm = m := (congrArg Prod.snd h1).symm
      refine ⟨?_, fun _ _ => hbm ▸ hca, ?_⟩
      · intro he
        rw [hbk] at he
        rw [he] at hck
        simp [keyLt_irrefl] at hck
      · refine coversCleared_of_all_gt k endKey rest ?_
        intro p hp
        have hcbp : keyLt cb p.1 = true := hbk ▸ hhd p hp
        have := hnone p (List.mem_cons_of_mem _ hp)
        by_cases hkp : keyLt k p.1 = true
        · exact hkp
        · exfalso
          have hple : keyLe p.1 k = true := keyLe_iff.mpr (by simpa using hkp)
          exact this ⟨hcbp, hple⟩
    · have hbcb : keyLt bk cb = true := hhd (cb, m) h2
      have hbk2 : keyLt bk k = true := keyLt_trans hbcb hck
      refine ⟨?_, ?_, ih m hrest h2 hca hck
        (fun p hp => hnone p (List.mem_cons_of_mem _ hp))⟩
      · intro he
        rw [he] at hbk2
        simp [keyLt_irrefl] at hbk2
      · intro _ hnext
        exfalso
        cases hre : rest with
        | nil =>
          subst hre
          simp at h2
        | cons q rest2 =>
          subst hre
          obtain ⟨q1, q2⟩ := q
          have hnext2 : keyLt k q1 = true := hnext
          have hqcb : keyLt q1 cb = true ∨ q1 = cb := by
            rcases List.mem_cons.mp h2 with hq1 | hq2
            · exact Or.inr (congrArg Prod.fst hq1).symm
            · exact Or.inl ((List.pairwise_cons.mp hrest).1 (cb, m) hq2)
          have hqk : keyLt k q1 = false := by
            rcases hqcb with hq | hq
            · exact keyLt_asymm (keyLt_trans hq hck)
            · rw [hq]
              exact keyLt_asymm hck
          rw [hqk] at hnext2
          exact Bool.false_ne_true hnext2

theorem leafMergeLoop_absent (k : Key) (endB : Key × RangeMutation)
    (hkend : keyLt k endB.1 = true) :
    ∀ (bs : List (Key × RangeMutation)) (recs : List KV) (first : Bool),
      CoversCleared k endB.1 bs →
      (bs = [] → ∀ r ∈ recs, r.key ≠ k) →
      ∀ r ∈ leafMergeLoop [] endB first bs recs, r.key ≠ k := by
  intro bs
  induction bs with
  | nil =>
    intro recs first _ hnil r hr
    simp only [leafMergeLoop] at hr
    by_cases hch : endB.2.boundaryChanged = true
    · rw [if_pos hch] at hr
      simp at hr
    · rw [if_neg hch] at hr
      exact hnil rfl r hr
  | cons hd rest ih =>
    intro recs first hcov hnil r hr
    obtain ⟨bk, bm⟩ := hd
    obtain ⟨hc1, hc2, hc3⟩ := hcov
    simp only [leafMergeLoop] at hr
    rcases List.mem_append.mp hr with hrA | hrB
    rcases List.mem_append.mp hrA with hrC | hrD
    rcases List.mem_append.mp hrC with hr1 | hr2
    · -- records kept at the boundary key
      by_cases hbk : bk = k
      · obtain ⟨hch, _⟩ := hc1 hbk
        have happ : (bm.boundaryChanged && (!first || keyLe ([] : Key) bk)) = true := by
          rw [hch, keyLe_nil]
          simp
        rw [if_pos happ] at hr1
        simp at hr1
      · intro hrk
        by_cases happ : (bm.boundaryChanged && (!first || keyLe ([] : Key) bk)) = true
        · rw [if_pos happ] at hr1
          simp at hr1
        · rw [if_neg happ] at hr1
          have hkeq : r.key = bk := by
            simpa using (List.mem_filter.mp hr1).2
          rw [hrk] at hkeq
          exact hbk hkeq.symm
    · -- the record inserted for a set boundary
      by_cases hcnd : ((bm.boundaryChanged && (!first || keyLe ([] : Key) bk))
          && bm.boundarySet) = true
      · rw [if_pos hcnd] at hr2
        rcases List.mem_singleton.mp hr2 with rfl
        intro hrk
        have hbk : bk = k := hrk
        obtain ⟨_, hset⟩ := hc1 hbk
        rw [hset] at hcnd
        simp at hcnd
      · rw [if_neg hcnd] at hr2
        simp at hr2
    · -- records strictly between this boundary and the next
      by_cases hca : bm.clearAfterBoundary = true
      · rw [if_pos hca] at hrD
        simp at hrD
      · rw [if_neg hca] at hrD
        intro hrk
        have hb := (List.mem_filter.mp hrD).2
        simp only [Bool.and_eq_true] at hb
        rw [hrk] at hb
        exact hca (hc2 hb.1 hb.2)
    · -- the recursive call on the remaining boundaries
      refine ih _ false hc3 ?_ r hrB
      intro hre r2 hr2 hk2
      subst hre
      have hb : keyLe endB.1 r2.key = true := (List.mem_filter.mp hr2).2
      rw [hk2] at hb
      have hcontra : keyLt k endB.1 = false := keyLe_iff.mp hb
      rw [hcontra] at hkend
      exact Bool.false_ne_true hkend

theorem keyLt_of_le_of_ne {a b : Key} (h1 : keyLe a b = true) (h2 : a ≠ b) :
    keyLt a b = true := by
  by_cases h : keyLt a b = true
  · exact h
  · exact absurd (keyLt_conn (by simpa using h) (keyLe_iff.mp h1)) h2

theorem isSingleKeyClear_eq {b e : Key} (h : isSingleKeyClear b e = true) :
    e = b ++ [0] := by
  simp only [isSingleKeyClear, Bool.and_eq_true, beq_iff_eq,
    decide_eq_true_eq] at h
  obtain ⟨⟨hlen, hlast⟩, hpre⟩ := h
  obtain ⟨t, rfl⟩ := List.isPrefixOf_iff_prefix.mp hpre
  have hlt : t.length = 1 := by
    rw [List.length_append] at hlen
    omega
  obtain ⟨x, rfl⟩ : ∃ x, t = [x] := by
    cases t with
    | nil => simp at hlt
    | cons y ys =>
      cases ys with
      | nil => exact ⟨y, rfl⟩
      | cons z zs => simp at hlt
  have : (b ++ [x]).getLast? = some x := List.getLast?_concat _
  rw [this] at hlast
  have : x = 0 := by simpa using hlast
  rw [this]

theorem applyMutationBuffer_absent (k : Key) (F : MutationBuffer) (recs : List KV)
    (c0 : RangeMutation)
    (hkE : keyLt k dbEndKey = true)
    (hsF : mbSorted F)
    (hEF : (dbEndKey, c0) ∈ F)
    (hmaxF : ∀ p ∈ F, p ≠ (dbEndKey, c0) → keyLt p.1 dbEndKey = true)
    (hcov : CoversCleared k dbEndKey F.dropLast)
    (hne : F.dropLast ≠ []) :
    readValueIn (applyMutationBuffer F recs) k = none := by
  have hglF : F.getLast? = some (dbEndKey, c0) :=
    mbSorted_getLast_max F hsF _ hEF hmaxF
  have happly : applyMutationBuffer F recs =
      leafMergeLoop [] (dbEndKey, c0) true F.dropLast recs := by
    simp only [applyMutationBuffer, hglF]
  have habs := leafMergeLoop_absent k (dbEndKey, c0) hkE F.dropLast recs true hcov
    (fun hnil => absurd hnil hne)
  rw [happly, readValueIn]
  have hfind : (leafMergeLoop [] (dbEndKey, c0) true F.dropLast recs).find?
      (fun r => r.key == k) = none := by
    rw [List.find?_eq_none]
    intro r hr hbeq
    exact habs r hr (by simpa using hbeq)
  rw [hfind]
  rfl

/-- C2: for every key `k` and value `v`, performing `set(k, v)`, then a clear
of a range `[cb, ce)` containing `k` (with `ce` within the key space), then
`commit()`, leaves the store with no record for `k`: a subsequent
`read_value(k)` returns absent, whatever records were committed before. -/
theorem set_clear_commit_absent (recs : List KV) (k : Key) (v : Value)
    (cb ce : Key) (hcb : keyLe cb k = true) (hce : keyLt k ce = true)
    (hend : keyLe ce dbEndKey = true) :
    readValueIn (setClearCommitContent k v cb ce recs) k = none := by
  have hkE : keyLt k dbEndKey = true := keyLt_of_lt_of_le hce hend
  have hkneE : k ≠ dbEndKey := keyLt_ne hkE
  have hcbE : keyLt cb dbEndKey = true := keyLt_of_le_of_lt hcb hkE
  have hB0 : mbSorted emptyMutationBuffer := by
    unfold mbSorted emptyMutationBuffer
    decide
  have hE_B0 : (dbEndKey, RangeMutation.clearBoundary freshRangeMutation) ∈
      emptyMutationBuffer := by
    unfold emptyMutationBuffer
    exact List.mem_cons_of_mem _ (List.mem_cons_self _ _)
  have hsL1 : mbSorted (mbInsert k emptyMutationBuffer) :=
    mbSorted_mbInsertFrom _ _ _ hB0
  have hsB1 : mbSorted (btreeSet k v emptyMutationBuffer) :=
    mbSorted_mbModify _ _ _ hsL1
  have hE_B1 : (dbEndKey, RangeMutation.clearBoundary freshRangeMutation) ∈
      btreeSet k v emptyMutationBuffer :=
    mem_mbModify_of_ne _ _ _ _
      (mem_mbInsertFrom_of_mem _ _ _ _ hE_B0) (Ne.symm hkneE)
  have hkeysB1 : ∀ p ∈ btreeSet k v emptyMutationBuffer,
      p ∈ emptyMutationBuffer ∨ p.1 = k := by
    intro p hp
    rcases mem_mbModify_elim _ _ _ p hp with h1 | ⟨m, _, hpm⟩
    · exact mem_mbInsertFrom_elim _ _ _ p h1
    · exact Or.inr (by rw [hpm])
  by_cases hclr : isSingleKeyClear cb ce = true
  · -- single-key clear path: the cleared range pins k = cb
    have hke : ce = cb ++ [0] := isSingleKeyClear_eq hclr
    rw [hke] at hce
    obtain rfl : k = cb := key_between_zero hcb hce
    have hfinal : setClearCommitContent k v k ce recs =
        applyMutationBuffer
          (mbModify k (fun m => m.clearBoundary)
            (mbInsert k (btreeSet k v emptyMutationBuffer))) recs := by
      simp only [setClearCommitContent, btreeClear, if_pos hclr]
    rw [hfinal]
    set F := mbModify k (fun m => m.clearBoundary)
      (mbInsert k (btreeSet k v emptyMutationBuffer)) with hFdef
    obtain ⟨m2, hm2⟩ := mbInsertFrom_mem_self (btreeSet k v emptyMutationBuffer)
      freshRangeMutation k
    have hsL2 : mbSorted (mbInsert k (btreeSet k v emptyMutationBuffer)) :=
      mbSorted_mbInsertFrom _ _ _ hsB1
    have hsF : mbSorted F := mbSorted_mbModify _ _ _ hsL2
    have hkent : (k, RangeMutation.clearBoundary m2) ∈ F :=
      mem_mbModify_self _ _ _ _ hsL2 hm2
    have hEF : (dbEndKey, RangeMutation.clearBoundary freshRangeMutation) ∈ F :=
      mem_mbModify_of_ne _ _ _ _
        (mem_mbInsertFrom_of_mem _ _ _ _ hE_B1) (Ne.symm hkneE)
    have hkeysF : ∀ p ∈ F, p ∈ emptyMutationBuffer ∨ p.1 = k := by
      intro p hp
      rcases mem_mbModify_elim _ _ _ p hp with h1 | ⟨m, _, hpm⟩
      · rcases mem_mbInsertFrom_elim _ _ _ p h1 with h2 | h2
        · exact hkeysB1 p h2
        · exact Or.inr h2
      · exact Or.inr (by rw [hpm])
    have hmaxF : ∀ p ∈ F,
        p ≠ (dbEndKey, RangeMutation.clearBoundary freshRangeMutation) →
        keyLt p.1 dbEndKey = true := by
      intro p hp hpne
      rcases hkeysF p hp with h1 | h1
      · rcases List.mem_cons.mp h1 with h2 | h2
        · rw [h2]
          decide
        · exact absurd (List.mem_singleton.mp h2) hpne
      · rw [h1]
        exact hkE
    have hglF : F.getLast? =
        some (dbEndKey, RangeMutation.clearBoundary freshRangeMutation) :=
      mbSorted_getLast_max F hsF _ hEF hmaxF
    have hdecomp : F.dropLast ++
        [(dbEndKey, RangeMutation.clearBoundary freshRangeMutation)] = F :=
      List.dropLast_append_getLast? _ hglF
    have hkdrop : (k, RangeMutation.clearBoundary m2) ∈ F.dropLast := by
      have h3 := hkent
      rw [← hdecomp] at h3
      rcases List.mem_append.mp h3 with h4 | h4
      · exact h4
      · exact absurd (congrArg Prod.fst (List.mem_singleton.mp h4)) hkneE
    have hsdrop : mbSorted F.dropLast :=
      List.Pairwise.sublist (List.dropLast_sublist _) hsF
    have hcov : CoversCleared k dbEndKey F.dropLast :=
      coversCleared_of_boundary k dbEndKey _ _ hsdrop hkdrop
        (by simp [RangeMutation.clearBoundary])
        (by simp [RangeMutation.boundarySet, RangeMutation.clearBoundary])
    have hne2 : F.dropLast ≠ [] := by
      intro h
      rw [h] at hkdrop
      simp at hkdrop
    exact applyMutationBuffer_absent k F recs _ hkE hsF hEF hmaxF hcov hne2
  · -- range clear path
    have hfinal : setClearCommitContent k v cb ce recs =
        applyMutationBuffer
          ((mbModify cb (fun m => m.clearAll)
              (mbInsert ce (mbInsert cb (btreeSet k v emptyMutationBuffer)))).filter
            (fun p => !(keyLt cb p.1 && keyLt p.1 ce))) recs := by
      simp only [setClearCommitContent, btreeClear, if_neg hclr]
    rw [hfinal]
    set F := (mbModify cb (fun m => m.clearAll)
        (mbInsert ce (mbInsert cb (btreeSet k v emptyMutationBuffer)))).filter
      (fun p => !(keyLt cb p.1 && keyLt p.1 ce)) with hFdef
    have hsL2 : mbSorted (mbInsert cb (btreeSet k v emptyMutationBuffer)) :=
      mbSorted_mbInsertFrom _ _ _ hsB1
    have hsB2 : mbSorted
        (mbInsert ce (mbInsert cb (btreeSet k v emptyMutationBuffer))) :=
      mbSorted_mbInsertFrom _ _ _ hsL2
    have hsMod : mbSorted (mbModify cb (fun m => m.clearAll)
        (mbInsert ce (mbInsert cb (btreeSet k v emptyMutationBuffer)))) :=
      mbSorted_mbModify _ _ _ hsB2
    have hsF : mbSorted F := List.Pairwise.filter _ hsMod
    obtain ⟨mcb, hmcb⟩ := mbInsertFrom_mem_self (btreeSet k v emptyMutationBuffer)
      freshRangeMutation cb
    have hcbB2 : (cb, mcb) ∈
        mbInsert ce (mbInsert cb (btreeSet k v emptyMutationBuffer)) :=
      mem_mbInsertFrom_of_mem _ _ _ _ hmcb
    have hcbMod : (cb, RangeMutation.clearAll mcb) ∈
        mbModify cb (fun m => m.clearAll)
          (mbInsert ce (mbInsert cb (btreeSet k v emptyMutationBuffer))) :=
      mem_mbModify_self _ _ _ _ hsB2 hcbB2
    have hcbF : (cb, RangeMutation.clearAll mcb) ∈ F :=
      List.mem_filter.mpr ⟨hcbMod, by simp [keyLt_irrefl]⟩
    have hEF : (dbEndKey, RangeMutation.clearBoundary freshRangeMutation) ∈ F := by
      refine List.mem_filter.mpr ⟨?_, ?_⟩
      · exact mem_mbModify_of_ne _ _ _ _
          (mem_mbInsertFrom_of_mem _ _ _ _
            (mem_mbInsertFrom_of_mem _ _ _ _ hE_B1))
          (Ne.symm (keyLt_ne hcbE))
      · simp [keyLe_iff.mp hend]
    have hkeysF : ∀ p ∈ F,
        p ∈ emptyMutationBuffer ∨ p.1 = k ∨ p.1 = cb ∨ p.1 = ce := by
      intro p hp
      have hp2 := (List.mem_filter.mp hp).1
      rcases mem_mbModify_elim _ _ _ p hp2 with h1 | ⟨m, _, hpm⟩
      · rcases mem_mbInsertFrom_elim _ _ _ p h1 with h2 | h2
        · rcases mem_mbInsertFrom_elim _ _ _ p h2 with h3 | h3
          · rcases hkeysB1 p h3 with h4 | h4
            · exact Or.inl h4
            · exact Or.inr (Or.inl h4)
          · exact Or.inr (Or.inr (Or.inl h3))
        · exact Or.inr (Or.inr (Or.inr h2))
      · exact Or.inr (Or.inr (Or.inl (by rw [hpm])))
    have hmaxF : ∀ p ∈ F,
        p ≠ (dbEndKey, RangeMutation.clearBoundary freshRangeMutation) →
        keyLt p.1 dbEndKey = true := by
      intro p hp hpne
      rcases hkeysF p hp with h1 | h1 | h1 | h1
      · rcases List.mem_cons.mp h1 with h2 | h2
        · rw [h2]
          decide
        · exact absurd (List.mem_singleton.mp h2) hpne
      · rw [h1]
        exact hkE
      · rw [h1]
        exact hcbE
      · by_cases hceE : ce = dbEndKey
        · exact absurd (mbSorted_key_unique F hsF p
            (dbEndKey, RangeMutation.clearBoundary freshRangeMutation) hp hEF
            (by rw [h1, hceE])) hpne
        · rw [h1]
          exact keyLt_of_le_of_ne hend hceE
    have hglF : F.getLast? =
        some (dbEndKey, RangeMutation.clearBoundary freshRangeMutation) :=
      mbSorted_getLast_max F hsF _ hEF hmaxF
    have hdecomp : F.dropLast ++
        [(dbEndKey, RangeMutation.clearBoundary freshRangeMutation)] = F :=
      List.dropLast_append_getLast? _ hglF
    have hcbdrop : (cb, RangeMutation.clearAll mcb) ∈ F.dropLast := by
      have h3 := hcbF
      rw [← hdecomp] at h3
      rcases List.mem_append.mp h3 with h4 | h4
      · exact h4
      · exact absurd (congrArg Prod.fst (List.mem_singleton.mp h4))
          (keyLt_ne hcbE)
    have hsdrop : mbSorted F.dropLast :=
      List.Pairwise.sublist (List.dropLast_sublist _) hsF
    have hne2 : F.dropLast ≠ [] := by
      intro h
      rw [h] at hcbdrop
      simp at hcbdrop
    have hcov : CoversCleared k dbEndKey F.dropLast := by
      by_cases hkcb : cb = k
      · subst hkcb
        exact coversCleared_of_boundary cb dbEndKey _ _ hsdrop hcbdrop
          (by simp [RangeMutation.clearAll, RangeMutation.clearBoundary])
          (by simp [RangeMutation.boundarySet, RangeMutation.clearAll,
            RangeMutation.clearBoundary])
      · have hcbk : keyLt cb k = true := keyLt_of_le_of_ne hcb hkcb
        refine coversCleared_of_clearAfter k dbEndKey cb _ _ hsdrop hcbdrop
          (by simp [RangeMutation.clearAll, RangeMutation.clearBoundary])
          hcbk ?_
        intro p hp hcontra
        obtain ⟨hp1, hp2⟩ := hcontra
        have hpF : p ∈ F := (List.dropLast_sublist F).mem hp
        have hpred := (List.mem_filter.mp hpF).2
        have hplt : keyLt p.1 ce = true := keyLt_of_le_of_lt hp2 hce
        simp [hp1, hplt] at hpred
    exact applyMutationBuffer_absent k F recs _ hkE hsF hEF hmaxF hcov hne2

/-- Witness for C2: with committed records `a=1, b=2, c=3, d=4`, setting `b`
then clearing `["b", "d")` and committing leaves `read_value("b")` absent. -/
theorem set_clear_commit_absent_witness :
    readValueIn (setClearCommitContent [98] [99] [98] [100]
      [⟨[97], [49]⟩, ⟨[98], [50]⟩, ⟨[99], [51]⟩, ⟨[100], [52]⟩]) [98] = none :=
  set_clear_commit_absent [⟨[97], [49]⟩, ⟨[98], [50]⟩, ⟨[99], [51]⟩, ⟨[100], [52]⟩]
    [98] [99] [98] [100] (by decide) (by decide) (by decide)

end Redwood
